import Mathlib

/-!
Verification development for the unidecode-replace library.

The model below is a shallow embedding of the Python sources
(`replace.py`, `search_item.py`, `match.py`, `func.py`, `replicas.py`).
Strings are `List Char`; Python's `-1` sentinels are kept as `Int`
values.  The two external collaborators are modelled at their
interfaces exactly as the specification scopes them: the
transliteration table is a parameter `tbl : Char → Option (List Char)`
(the `unidecode` data tables: `none` when the library has no data for
the character), and the native pattern engine is a parameter
(`ReEngine` below) providing compile and search-from-position.
Loops that Python expresses with `while True` are given explicit fuel;
all statements about the run loop are proved for every fuel value.
-/

namespace UniR

/-! ### Transliteration collaborator (`replicas.py` and the `unidecode` library) -/

/-- `_get_repl_str` from `replicas.py`: ASCII characters map to themselves,
characters above the private-use area have no data, anything else is looked
up in the table. -/
def replStr (tbl : Char → Option (List Char)) (c : Char) : Option (List Char) :=
  if c.toNat < 0x80 then some [c]
  else if c.toNat > 0xeffff then none
  else tbl c

/-- `_unidecode_repl_char` with `errors="preserve"`: characters without data
pass through unchanged.  This is the only policy the core uses on the text. -/
def uniPreserve (tbl : Char → Option (List Char)) (c : Char) : List Char :=
  (replStr tbl c).getD [c]

/-- `unidecode(s)` with the library's default `errors="ignore"`: characters
without data are dropped.  Used on search strings and pattern sources. -/
def unidecodeIgnore (tbl : Char → Option (List Char)) (s : List Char) : List Char :=
  (s.map (fun c => (replStr tbl c).getD [])).flatten

/-! ### Python primitives -/

/-- Clamp a (possibly negative) Python index into `[0, n]`. -/
def pyIdx (n : Nat) (i : Int) : Nat :=
  if i < 0 then (max 0 ((n : Int) + i)).toNat else (min (n : Int) i).toNat

/-- Python slice `s[a:b]`. -/
def pySlice (s : List Char) (a b : Int) : List Char :=
  (s.take (pyIdx s.length b)).drop (pyIdx s.length a)

/-- Python slice `s[a:]`. -/
def pySliceFrom (s : List Char) (a : Int) : List Char :=
  pySlice s a (s.length : Int)

/-- `needle` occurs in `hay` at position `i`. -/
def matchesAt (hay needle : List Char) (i : Nat) : Bool :=
  needle.isPrefixOf (hay.drop i)

/-- Python `hay.index(needle, start)` (as `find`: `none` instead of
`ValueError`); a negative `start` counts from the end of the string. -/
def strIndexFrom (hay needle : List Char) (start : Int) : Option Int :=
  let s : Int := if start < 0 then max 0 ((hay.length : Int) + start) else start
  ((List.range (hay.length + 1)).find? (fun i => decide (s ≤ Int.ofNat i) && matchesAt hay needle i)).map
    (fun i => (i : Int))

/-! ### The index map `u2i` (`UnidecodeReplace._get_unis` and `_NoUnidecodingDict`) -/

/-- Python-dict insert: overwrite the value if the key is present, append
otherwise (insertion order preserved, as in CPython). -/
def dictUpsert (ps : List (Nat × Nat)) (kv : Nat × Nat) : List (Nat × Nat) :=
  if ps.any (fun p => p.1 = kv.1) then
    ps.map (fun p => if p.1 = kv.1 then kv else p)
  else ps ++ [kv]

/-- Build a Python dict from a pair list. -/
def dictOf (l : List (Nat × Nat)) : List (Nat × Nat) :=
  l.foldl dictUpsert []

/-- The mapping from transliterated offsets to original offsets.  `ident`
models `_NoUnidecodingDict` (every key present, identity values), used when
`unidecoded_search` is off. -/
structure U2I where
  ident : Bool
  pairs : List (Nat × Nat)

/-- Dict lookup returning `none` for a `KeyError`. -/
def U2I.lookupI (d : U2I) (k : Int) : Option Int :=
  if d.ident then some k
  else (d.pairs.find? (fun p => ((p.1 : Int) = k : Bool))).map (fun p => (p.2 : Int))

/-- Dict lookup where the call site cannot raise (`-1` as an inert default;
all proved facts go through `lookupI`). -/
def U2I.getI (d : U2I) (k : Int) : Int :=
  (d.lookupI k).getD (-1)

/-- Python `k in u2i`. -/
def U2I.containsI (d : U2I) (k : Int) : Bool :=
  d.ident || d.pairs.any (fun p => ((p.1 : Int) = k : Bool))

/-- `iter(u2i.keys())` in insertion order. -/
def U2I.keysList (d : U2I) : List Nat :=
  d.pairs.map (fun p => p.1)

/-- The accumulated breakpoints `itertools.accumulate(lengths, initial=0)`. -/
def breaksFrom (acc : Nat) : List (List Char) → List Nat
  | [] => [acc]
  | x :: xs => acc :: breaksFrom (acc + x.length) xs

/-- The per-character transliterated chunks of the input
(`list(unidecode_repl(string, "preserve"))`). -/
def uniChunks (tbl : Char → Option (List Char)) (s : List Char) : List (List Char) :=
  s.map (uniPreserve tbl)

/-- `u2i` as built in `_get_unis` for a transliterated search:
`dict(zip(accumulate(lengths, initial=0), range(n + 1)))`. -/
def mkU2I (tbl : Char → Option (List Char)) (s : List Char) : U2I :=
  let bs := breaksFrom 0 (uniChunks tbl s)
  { ident := false, pairs := dictOf (bs.zip (List.range (s.length + 1))) }

/-- `_NoUnidecodingDict()`. -/
def identU2I : U2I := { ident := true, pairs := [] }

/-- The transliterated projection: the concatenation of the per-character
chunks (`"".join(unidecoded_list)` in `_get_unis`). -/
def uniJoin (tbl : Char → Option (List Char)) (s : List Char) : List Char :=
  (uniChunks tbl s).flatten

/-! ### The native pattern engine, at its interface (spec section 1 scopes it out) -/

/-- A match produced by the native engine on the transliterated string, in
transliterated coordinates.  `lastindex` is the engine's last-matched group
index (passed through unchanged by `UnidecodeReMatch.lastindex`), and
`expandF` stands for the rebased template expansion of this match
(`UnidecodeReMatch.expand`), whose value no claim inspects. -/
structure UniMatch where
  ustart : Int
  uend : Int
  lastindex : Option Nat
  expandF : List Char → List Char

/-- A compiled pattern: its source and flags (as a bitmask; `re.I = 2`) and
its search-from-position capability. -/
structure RePattern where
  source : List Char
  flags : Nat
  search : List Char → Int → Option UniMatch

/-- The `re` module at its interface: `compile`, plus the construction-time
probe `re.match("(?:" + source + ")$", "") is not None` used by
`SearchItemRegex.__init__` to reject patterns that match the empty string. -/
structure ReEngine where
  compile : List Char → Nat → RePattern
  matchesEmptyProbe : List Char → Bool

/-- Sanity of a compiled pattern's search, as CPython guarantees it: a
returned match has `0 ≤ start ≤ end`. -/
def SearchSane (p : RePattern) : Prop :=
  ∀ hay q m, p.search hay q = some m → 0 ≤ m.ustart ∧ m.ustart ≤ m.uend

/-- Every pattern the engine compiles is sane. -/
def CompileSane (re : ReEngine) : Prop :=
  ∀ src fl, SearchSane (re.compile src fl)

/-! ### Search and substitution arguments -/

/-- A search term as the user supplies it: a `str` or a compiled
`re.Pattern`. -/
inductive SearchIn where
  | s (txt : List Char)
  | pat (p : RePattern)

/-- What a callable substitution receives: the matched original substring
(string searches) or the rebased match object (pattern searches). -/
inductive SubArg where
  | s (t : List Char)
  | m (group0 : List Char) (lastindex : Option Nat) (startO endO posW endposW : Int)

/-- One substitution: a literal string or a callable. -/
inductive Sub where
  | str (t : List Char)
  | fn (f : SubArg → List Char)

/-! ### Errors (spec section 7 taxonomy; Python raises ValueError/TypeError) -/

inductive URError where
  | emptySearchSet
  | emptyPattern
  | emptyPatternMatch
  | subCountMismatch
  | invalidCount
  deriving DecidableEq

/-! ### The run configuration (`UnidecodeReplace.__init__` state) -/

/-- The immutable per-run data of a `UnidecodeReplace` instance. -/
structure URConfig where
  string : List Char
  allowOverlaps : Bool
  posW : Int
  endposW : Int
  unidecodedSearch : Bool
  strCaseSensitive : Bool
  u2i : U2I
  uniStr0 : List Char
  uniStrLower0 : List Char

/-! ### Search items (`search_item.py`) -/

/-- The variant-specific data: `SearchItemStr` holds its normalized search
string; `SearchItemRegex` holds its compiled pattern and the
case-sensitivity bit computed from the extracted flags at construction. -/
inductive SIKind where
  | strK (search : List Char)
  | reK (p : RePattern) (cs : Bool)

/-- The mutable scan state: `_pos`, the shared `_pos_iter` over `u2i` keys
(`none` when `unidecoded_search` is off), and the stored match `m` of a
pattern item. -/
structure SIState where
  pos : Int
  posIter : Option (List Nat)
  m : Option UniMatch

/-- One search item: variant data, its substitution, its scan state. -/
structure SearchItem where
  kind : SIKind
  sub : Sub
  st : SIState

/-- `SearchItem.case_sensitive`. -/
def SearchItem.caseSensitive (cfg : URConfig) (it : SearchItem) : Bool :=
  match it.kind with
  | .strK _ => cfg.strCaseSensitive
  | .reK _ cs => cs

/-- `SearchItem.uni_str`: the string this item scans.  `uniStr0` is the
transliterated projection (or the original string when `unidecoded_search`
is off), `uniStrLower0` its lowercase form. -/
def SearchItem.uniStr (cfg : URConfig) (it : SearchItem) : List Char :=
  if it.caseSensitive cfg then cfg.uniStr0 else cfg.uniStrLower0

/-- `SearchItem.reset_search`: position back to `-1`, fresh key iterator
when searching the transliterated projection. -/
def resetSearch (cfg : URConfig) (st : SIState) : Int × SIState :=
  (-1, { st with pos := -1,
                 posIter := if cfg.unidecodedSearch then some cfg.u2i.keysList else none })

/-- The `pos_is_good` predicate inside `get_next_pos`. -/
def posIsGood (cfg : URConfig) (st : SIState) (minPos minIpos : Option Int) : Bool :=
  (match minPos with | none => true | some mp => decide (st.pos ≥ max 0 mp)) &&
  (match minIpos with | none => true | some mi => decide (cfg.u2i.getI st.pos ≥ max 0 mi)) &&
  decide (cfg.u2i.getI st.pos ≥ cfg.posW)

/-- The iterator loop inside `get_next_pos` (`while True: self._pos =
next(self._pos_iter) ...`); structural recursion over the remaining keys,
with the `StopIteration` failsafe at the end. -/
def gnpIter (cfg : URConfig) (minPos minIpos : Option Int) :
    SIState → List Nat → Int × SIState
  | st, [] => resetSearch cfg st
  | st, k :: ks =>
    let st' : SIState := { st with pos := (k : Int), posIter := some ks }
    if cfg.u2i.getI (k : Int) ≥ cfg.endposW then resetSearch cfg st'
    else if posIsGood cfg st' minPos minIpos then ((k : Int), st')
    else gnpIter cfg minPos minIpos st' ks

/-- `SearchItem.get_next_pos`. -/
def getNextPos (cfg : URConfig) (st : SIState) (minPos minIpos : Option Int) :
    Int × SIState :=
  if (minPos.isSome || minIpos.isSome) && posIsGood cfg st minPos minIpos then
    if cfg.u2i.getI st.pos < cfg.endposW then (st.pos, st) else resetSearch cfg st
  else
    match st.posIter with
    | none =>
      let p := st.pos + 1
      if p ≥ (cfg.string.length : Int) then resetSearch cfg { st with pos := p }
      else (p, { st with pos := p })
    | some ks => gnpIter cfg minPos minIpos st ks

/-- `SearchItem.chunk_ok`: both boundaries of a candidate span must be
aligned, i.e. keys of `u2i`. -/
def chunkOk (cfg : URConfig) (a b : Int) : Bool :=
  cfg.u2i.containsI a && cfg.u2i.containsI b

/-- The retry loop of `SearchItemStr.next`.  Fuel only bounds the number of
retries; each retry strictly advances the scan position, so
`hay.length + 2` is always sufficient.  On exhaustion the item reports
itself exhausted. -/
def strNextLoop (cfg : URConfig) (search hay : List Char) :
    Nat → Int → SIState → Int × SIState
  | 0, _, st => (-1, st)
  | fuel + 1, pos, st =>
    match strIndexFrom hay search pos with
    | none => resetSearch cfg st
    | some hit =>
      let g1 := getNextPos cfg st (some hit) none
      if hit = g1.1 && chunkOk cfg hit (hit + (search.length : Int)) then (hit, g1.2)
      else
        let g2 := getNextPos cfg g1.2 (some (hit + 1)) none
        if g2.1 < 0 then (-1, g2.2)
        else strNextLoop cfg search hay fuel g2.1 g2.2

/-- The retry loop of `SearchItemRegex.next`.  On an engine miss the stored
match is cleared; on a validation-retry exit it is kept, exactly as in the
source. -/
def reNextLoop (cfg : URConfig) (p : RePattern) (hay : List Char) :
    Nat → Int → SIState → Int × SIState
  | 0, _, st => (-1, st)
  | fuel + 1, pos, st =>
    match p.search hay pos with
    | none => (-1, { st with m := none })
    | some um =>
      let hit := um.ustart
      let g1 := getNextPos cfg st (some hit) none
      if hit = g1.1 && chunkOk cfg hit um.uend then (hit, { g1.2 with m := some um })
      else
        let g2 := getNextPos cfg g1.2 (some (hit + 1)) none
        if g2.1 < 0 then (-1, g2.2)
        else reNextLoop cfg p hay fuel g2.1 g2.2

/-- `SearchItem.next` for both variants: seed the scan position
(`self.pos if self.pos >= 0 else self.get_next_pos()`), then run the
variant's search-validate-retry loop. -/
def siNext (cfg : URConfig) (it : SearchItem) : Int × SearchItem :=
  let hay := it.uniStr cfg
  let seed := if it.st.pos ≥ 0 then (it.st.pos, it.st) else getNextPos cfg it.st none none
  match it.kind with
  | .strK search =>
    let res := strNextLoop cfg search hay (hay.length + 2) seed.1 seed.2
    (res.1, { it with st := res.2 })
  | .reK p _ =>
    let res := reNextLoop cfg p hay (hay.length + 2) seed.1 seed.2
    (res.1, { it with st := res.2 })

/-- `SearchItem.get_start_end`: the original-coordinate span of the current
candidate, `(-1, -1)` when there is none (`KeyError` for the string
variant, no stored match for the pattern variant). -/
def getStartEnd (cfg : URConfig) (it : SearchItem) : Int × Int :=
  match it.kind with
  | .strK search =>
    match cfg.u2i.lookupI it.st.pos, cfg.u2i.lookupI (it.st.pos + (search.length : Int)) with
    | some a, some b => (a, b)
    | _, _ => (-1, -1)
  | .reK _ _ =>
    match it.st.m with
    | none => (-1, -1)
    | some um =>
      ((if um.ustart < 0 then -1 else cfg.u2i.getI um.ustart),
       (if um.uend < 0 then -1 else cfg.u2i.getI um.uend))

/-- Build the `UnidecodeReMatch` surface handed to a callable substitution
of a pattern item: group 0 (the matched original substring), the
passed-through `lastindex`, the rebased span, and the window. -/
def mkSubArgM (cfg : URConfig) (um : UniMatch) : SubArg :=
  let s : Int := if um.ustart < 0 then -1 else cfg.u2i.getI um.ustart
  let e : Int := if um.uend < 0 then -1 else cfg.u2i.getI um.uend
  .m (if 0 ≤ s && 0 ≤ e then pySlice cfg.string s e else []) um.lastindex s e cfg.posW cfg.endposW

/-- `SearchItem.get_replace`.  A string item's callable receives the matched
original substring; a pattern item's callable receives the rebased match; a
pattern item's literal substitution goes through template expansion of the
stored match. -/
def getReplace (cfg : URConfig) (it : SearchItem) : List Char :=
  match it.kind with
  | .strK _ =>
    match it.sub with
    | .str t => t
    | .fn f =>
      let se := getStartEnd cfg it
      f (.s (pySlice cfg.string se.1 se.2))
  | .reK _ _ =>
    match it.st.m with
    | none => []
    | some um =>
      match it.sub with
      | .str t => um.expandF t
      | .fn f => f (mkSubArgM cfg um)

/-! ### Construction (`get_search_item`, `UnidecodeReplace.__init__`) -/

/-- The keyword options of `unidecode_replace`, with their defaults. -/
structure Opts where
  allowOverlaps : Bool := false
  reSearch : Bool := false
  reFlags : Nat := 0
  count : Option Int := none
  pos : Option Int := none
  endpos : Option Int := none
  unidecodedSearch : Bool := true
  strCaseSensitive : Bool := true

/-- `str.lower`. -/
def lowerStr (s : List Char) : List Char := s.map Char.toLower

/-- `SearchItemStr.__init__`: case-fold, transliterate, reject empty. -/
def mkItemStr (tbl : Char → Option (List Char)) (o : Opts) (txt : List Char) (sb : Sub) :
    Except URError SearchItem :=
  let t1 := if o.strCaseSensitive then txt else lowerStr txt
  let t2 := if o.unidecodedSearch then unidecodeIgnore tbl t1 else t1
  if t2.isEmpty then .error .emptyPattern
  else .ok { kind := .strK t2, sub := sb, st := { pos := -1, posIter := none, m := none } }

/-- `SearchItemRegex.__init__` on a compiled pattern: extract its flags and
source, transliterate the source when transliterated search is on, reject
sources that match the empty string, recompile. -/
def mkItemRegex (tbl : Char → Option (List Char)) (re : ReEngine) (o : Opts)
    (p : RePattern) (sb : Sub) : Except URError SearchItem :=
  let src := if o.unidecodedSearch then unidecodeIgnore tbl p.source else p.source
  if re.matchesEmptyProbe src then .error .emptyPatternMatch
  else
    .ok { kind := .reK (re.compile src p.flags) (decide (p.flags &&& 2 = 0)), sub := sb,
          st := { pos := -1, posIter := none, m := none } }

/-- `get_search_item`: a plain string becomes a pattern first when
`re_search` is set, otherwise a string item. -/
def getSearchItem (tbl : Char → Option (List Char)) (re : ReEngine) (o : Opts)
    (sIn : SearchIn) (sb : Sub) : Except URError SearchItem :=
  match sIn with
  | .s txt =>
    if o.reSearch then mkItemRegex tbl re o (re.compile txt o.reFlags) sb
    else mkItemStr tbl o txt sb
  | .pat p => mkItemRegex tbl re o p sb

/-- The list comprehension building the items: constructed in order, the
first constructor error aborts the call. -/
def collectItems (f : α → Except URError SearchItem) :
    List α → Except URError (List SearchItem)
  | [] => .ok []
  | x :: xs =>
    match f x with
    | .error e => .error e
    | .ok it =>
      match collectItems f xs with
      | .error e => .error e
      | .ok its => .ok (it :: its)

/-- `UnidecodeReplace._get_search_items`: reject an empty search set, pair
searches with substitutions index-wise when the counts agree, broadcast a
single substitution, otherwise report the count mismatch. -/
def getSearchItems (tbl : Char → Option (List Char)) (re : ReEngine) (o : Opts)
    (searches : List SearchIn) (subs : List Sub) : Except URError (List SearchItem) :=
  if searches.isEmpty then .error .emptySearchSet
  else if searches.length = subs.length then
    collectItems (fun pr => getSearchItem tbl re o pr.1 pr.2) (searches.zip subs)
  else
    match subs with
    | [sb] => collectItems (fun sIn => getSearchItem tbl re o sIn sb) searches
    | _ => .error .subCountMismatch

/-- `UnidecodeReplace.__init__` window defaulting and `_get_unis`. -/
def mkConfig (tbl : Char → Option (List Char)) (o : Opts) (string : List Char) : URConfig :=
  let uniStr0 := if o.unidecodedSearch then uniJoin tbl string else string
  { string := string
    allowOverlaps := o.allowOverlaps
    posW := o.pos.getD 0
    endposW := match o.endpos with
      | none => (string.length : Int)
      | some e => min (string.length : Int) e
    unidecodedSearch := o.unidecodedSearch
    strCaseSensitive := o.strCaseSensitive
    u2i := if o.unidecodedSearch then mkU2I tbl string else identU2I
    uniStr0 := uniStr0
    uniStrLower0 := lowerStr uniStr0 }

/-- `UnidecodeReplace._init_search_items`: reset every item, prime it with
one `next()` call, and keep only the items that found something. -/
def initItems (cfg : URConfig) (items : List SearchItem) : List SearchItem :=
  (items.map (fun it => siNext cfg { it with st := (resetSearch cfg it.st).2 })).filterMap
    (fun pr => if pr.1 ≥ 0 then some pr.2 else none)

/-! ### The run loop (`UnidecodeReplace.run` and `_skip_overlaps`) -/

/-- `_skip_overlaps`, before the removal step: every item repositioned past
`lastPos`, together with its `get_next_pos` result. -/
def skipOverlapsMapped (cfg : URConfig) (lastPos : Int) (items : List SearchItem) :
    List (Int × SearchItem) :=
  items.map (fun it =>
    let res := getNextPos cfg it.st none (some lastPos)
    (res.1, { it with st := res.2 }))

/-- `min(enumerate(items), key=...)`: the first item attaining the minimal
scan position, with its index. -/
def argminAux : List SearchItem → Nat → Nat × SearchItem → Nat × SearchItem
  | [], _, best => best
  | x :: xs, i, best =>
    argminAux xs (i + 1) (if x.st.pos < best.2.st.pos then (i, x) else best)

/-- One emitted replacement: the transliterated-coordinate span of the
candidate, its original-coordinate span `(mStart, mEnd)` as read by
`get_start_end`, and the start actually emitted (after the stale-candidate
clamp); the emitted span is `[eStart, mEnd)`. -/
structure REvent where
  uStart : Int
  uEnd : Int
  mStart : Int
  mEnd : Int
  eStart : Int
  deriving DecidableEq

/-- The transliterated-coordinate span of an item's current candidate. -/
def uSpanOf (it : SearchItem) : Int × Int :=
  match it.kind with
  | .strK search => (it.st.pos, it.st.pos + (search.length : Int))
  | .reK _ _ =>
    match it.st.m with
    | none => (-1, -1)
    | some um => (um.ustart, um.uend)

/-- The end of a loop iteration that emitted nothing: `next()` on the
chosen item, then `del` it by index when it is exhausted. -/
def runStepNoEmit (cfg : URConfig) (items : List SearchItem) (siIdx : Nat)
    (item : SearchItem) : List SearchItem :=
  let nx := siNext cfg item
  let items1 := items.set siIdx nx.2
  if nx.1 < 0 then items1.eraseIdx siIdx else items1

/-- The end of an emitting iteration with overlaps allowed: reposition the
chosen item past `pos + 1`, advance it, delete it by index if exhausted. -/
def runStepOverlap (cfg : URConfig) (items : List SearchItem) (siIdx : Nat)
    (item : SearchItem) (pos : Int) : List SearchItem :=
  let stA := (getNextPos cfg item.st none (some (pos + 1))).2
  let nx := siNext cfg { item with st := stA }
  let items1 := items.set siIdx nx.2
  if nx.1 < 0 then items1.eraseIdx siIdx else items1

/-- The end of an emitting iteration without overlaps: `_skip_overlaps`
repositions every item past the new `last_pos` and drops the spent ones;
the chosen object (present or not) is then advanced by `next()`, its state
written back at its new index when it survived, and `del` by the original
index applies when `next()` failed.  An out-of-range index (where CPython
would raise `IndexError`, unreachable for a sane engine) is a no-op. -/
def runStepSkip (cfg : URConfig) (items : List SearchItem) (siIdx : Nat)
    (item : SearchItem) (lastPos : Int) : List SearchItem :=
  let mapped := skipOverlapsMapped cfg lastPos items
  let kept := (mapped.filter (fun pr => decide (pr.1 ≠ -1))).map (fun pr => pr.2)
  let chosenG := getNextPos cfg item.st none (some lastPos)
  let newIdx := ((mapped.take siIdx).filter (fun pr => decide (pr.1 ≠ -1))).length
  let nx := siNext cfg { item with st := chosenG.2 }
  let items1 := if chosenG.1 ≠ -1 then kept.set newIdx nx.2 else kept
  if nx.1 < 0 then items1.eraseIdx siIdx else items1

/-- The body of `UnidecodeReplace.run`'s `while` loop, with fuel.  Returns
the accumulated output of the loop, the emitted events, and the final
`last_pos`.  `cnt` is the remaining replacement budget (`None` = no limit). -/
def runAux (cfg : URConfig) : Nat → List SearchItem → Int → Option Int →
    List Char × List REvent × Int
  | 0, _, lastPos, _ => ([], [], lastPos)
  | _ + 1, [], lastPos, _ => ([], [], lastPos)
  | fuel + 1, itFirst :: itRest, lastPos, cnt =>
    let items := itFirst :: itRest
    let chosen := argminAux itRest 1 (0, itFirst)
    let siIdx := chosen.1
    let item := chosen.2
    let se := getStartEnd cfg item
    let pos0 := se.1
    let nextPos := se.2
    if pos0 ≥ lastPos || cfg.allowOverlaps then
      let pos := if lastPos > pos0 then lastPos else pos0
      let chunk := pySlice cfg.string lastPos pos ++ getReplace cfg item
      let ev : REvent := ⟨(uSpanOf item).1, (uSpanOf item).2, pos0, nextPos, pos⟩
      if cnt.elim false (fun n => n ≤ 1) then (chunk, [ev], nextPos)
      else
        let items2 := if cfg.allowOverlaps then runStepOverlap cfg items siIdx item pos
                      else runStepSkip cfg items siIdx item nextPos
        let rest := runAux cfg fuel items2 nextPos (cnt.map (fun n => n - 1))
        (chunk ++ rest.1, ev :: rest.2.1, rest.2.2)
    else
      runAux cfg fuel (runStepNoEmit cfg items siIdx item) lastPos cnt

/-- The full result of `UnidecodeReplace.run`: the loop output plus the
trailing `string[last_pos:]`. -/
structure RunOut where
  out : List Char
  events : List REvent
  finalLast : Int
  body : List Char

/-- Close the run: append the untouched tail of the original text. -/
def runClose (cfg : URConfig) (fuel : Nat) (items : List SearchItem) (cnt : Option Int) :
    RunOut :=
  let r := runAux cfg fuel items 0 cnt
  { out := r.1 ++ pySliceFrom cfg.string r.2.2
    events := r.2.1
    finalLast := r.2.2
    body := r.1 }

/-- The whole call: construct the items (construction errors abort before
any scanning), build the configuration and projection, prime the items,
validate `count`, run. -/
def replaceCore (tbl : Char → Option (List Char)) (re : ReEngine) (string : List Char)
    (searches : List SearchIn) (subs : List Sub) (o : Opts) (fuel : Nat) :
    Except URError RunOut :=
  match getSearchItems tbl re o searches subs with
  | .error e => .error e
  | .ok items0 =>
    let cfg := mkConfig tbl o string
    let items := initItems cfg items0
    match o.count with
    | some n => if n ≤ 0 then .error .invalidCount else .ok (runClose cfg fuel items (some n))
    | none => .ok (runClose cfg fuel items none)

/-- `unidecode_replace` with explicit fuel. -/
def unidecodeReplaceF (tbl : Char → Option (List Char)) (re : ReEngine) (string : List Char)
    (searches : List SearchIn) (subs : List Sub) (o : Opts) (fuel : Nat) :
    Except URError (List Char) :=
  (replaceCore tbl re string searches subs o fuel).map (fun r => r.out)

/-- A fuel bound ample for every terminating run of the examples below. -/
def bigFuel (string : List Char) (searches : List SearchIn) : Nat :=
  (string.length + 4) * (searches.length + 2) * 8

/-- `unidecode_replace`. -/
def unidecodeReplace (tbl : Char → Option (List Char)) (re : ReEngine) (string : List Char)
    (searches : List SearchIn) (subs : List Sub) (o : Opts) : Except URError (List Char) :=
  unidecodeReplaceF tbl re string searches subs o (bigFuel string searches)

/-- The substitution `unidecode_wrap` builds: wrap the matched original
text (the plain substring for a string search, group 0 for a pattern
search) in the given bracketing strings. -/
def wrapSub (pre suf : List Char) : Sub :=
  .fn (fun a =>
    match a with
    | .s t => pre ++ t ++ suf
    | .m g0 _ _ _ _ _ => pre ++ g0 ++ suf)

/-- `unidecode_wrap`. -/
def unidecodeWrap (tbl : Char → Option (List Char)) (re : ReEngine) (string : List Char)
    (searches : List SearchIn) (pre suf : List Char) (o : Opts) :
    Except URError (List Char) :=
  unidecodeReplace tbl re string searches [wrapSub pre suf] o

/-! ### Properties of the index map -/

/-- The facts about `u2i` the run-loop invariants use: monotone over its
keys, lookup succeeds exactly on keys, values of a non-identity map are
Nat-valued. -/
def U2IGood (d : U2I) : Prop :=
  (∀ a b : Int, d.containsI a = true → d.containsI b = true → a ≤ b →
      d.getI a ≤ d.getI b) ∧
  (∀ a : Int, (d.lookupI a).isSome ↔ d.containsI a = true) ∧
  (∀ a : Int, d.containsI a = true → d.ident = true ∨ 0 ≤ d.getI a)

theorem mem_dictUpsert {ps : List (Nat × Nat)} {kv p : Nat × Nat}
    (h : p ∈ dictUpsert ps kv) : p ∈ ps ∨ p = kv := by
  unfold dictUpsert at h
  split at h
  · rcases List.mem_map.1 h with ⟨q, hq, hqe⟩
    by_cases hk : q.1 = kv.1
    · right; rw [if_pos hk] at hqe; exact hqe.symm
    · left; rw [if_neg hk] at hqe; exact hqe ▸ hq
  · rcases List.mem_append.1 h with h1 | h1
    · exact Or.inl h1
    · right; simpa using h1

theorem mem_foldl_dictUpsert {l : List (Nat × Nat)} :
    ∀ {acc : List (Nat × Nat)} {p : Nat × Nat},
      p ∈ l.foldl dictUpsert acc → p ∈ acc ∨ p ∈ l := by
  induction l with
  | nil => intro acc p h; exact Or.inl h
  | cons x xs ih =>
    intro acc p h
    rcases @ih (dictUpsert acc x) p h with h1 | h1
    · rcases mem_dictUpsert h1 with h2 | h2
      · exact Or.inl h2
      · exact Or.inr (h2 ▸ List.mem_cons_self x xs)
    · exact Or.inr (List.mem_cons_of_mem x h1)

theorem mem_dictOf {l : List (Nat × Nat)} {p : Nat × Nat} (h : p ∈ dictOf l) : p ∈ l := by
  rcases mem_foldl_dictUpsert h with h1 | h1
  · cases h1
  · exact h1

theorem mem_zip_range' :
    ∀ (l : List Nat) (n s : Nat) {k v : Nat},
      (k, v) ∈ l.zip (List.range' s n) → s ≤ v ∧ l.get? (v - s) = some k := by
  intro l
  induction l with
  | nil => intro n s k v h; simp at h
  | cons x xs ih =>
    intro n s k v h
    cases n with
    | zero => simp [List.range'] at h
    | succ m =>
      rw [List.range'] at h
      rcases List.mem_cons.1 h with h1 | h1
      · obtain ⟨hk, hv⟩ : k = x ∧ v = s := by
          constructor <;> [exact congrArg Prod.fst h1; exact congrArg Prod.snd h1]
        subst hk; subst hv; simp
      · obtain ⟨hs, hg⟩ := ih m (s + 1) h1
        refine ⟨by omega, ?_⟩
        have hvs : v - s = (v - (s + 1)) + 1 := by omega
        rw [hvs]
        simpa using hg

theorem breaksFrom_le :
    ∀ (l : List (List Char)) (a : Nat) {x : Nat}, x ∈ breaksFrom a l → a ≤ x := by
  intro l
  induction l with
  | nil => intro a x h; simp [breaksFrom] at h; omega
  | cons y ys ih =>
    intro a x h
    rw [breaksFrom] at h
    rcases List.mem_cons.1 h with h1 | h1
    · omega
    · have := ih (a + y.length) h1; omega

theorem breaksFrom_sorted :
    ∀ (l : List (List Char)) (a : Nat), (breaksFrom a l).Sorted (· ≤ ·) := by
  intro l
  induction l with
  | nil => intro a; simp [breaksFrom]
  | cons y ys ih =>
    intro a
    rw [breaksFrom]
    exact List.Pairwise.cons (fun x hx => le_trans (by omega) (breaksFrom_le ys (a + y.length) hx))
      (ih (a + y.length))

theorem sorted_get?_mono {l : List Nat} (hs : l.Sorted (· ≤ ·)) {i j : Nat} {x y : Nat}
    (hij : i ≤ j) (hi : l.get? i = some x) (hj : l.get? j = some y) : x ≤ y := by
  rcases Nat.lt_or_ge i j with hlt | hge
  · have hjl : j < l.length := (List.get?_eq_some.1 hj).1
    have hil : i < l.length := (List.get?_eq_some.1 hi).1
    have := (List.pairwise_iff_get.1 hs) ⟨i, hil⟩ ⟨j, hjl⟩ hlt
    have hx : l.get ⟨i, hil⟩ = x := (List.get?_eq_some.1 hi).2
    have hy : l.get ⟨j, hjl⟩ = y := (List.get?_eq_some.1 hj).2
    rw [hx, hy] at this
    exact this
  · have : i = j := le_antisymm hij hge
    subst this
    rw [hi] at hj
    exact le_of_eq (Option.some.inj hj)

/-- A successful lookup pins down a pair of the built dict that indexes into
the breakpoint list. -/
theorem mkU2I_lookup_pair {tbl : Char → Option (List Char)} {s : List Char} {a v : Int}
    (h : (mkU2I tbl s).lookupI a = some v) :
    ∃ p : Nat × Nat, ((p.1 : Int) = a ∧ (p.2 : Int) = v) ∧
      (breaksFrom 0 (uniChunks tbl s)).get? p.2 = some p.1 := by
  rw [show (mkU2I tbl s).lookupI a =
      ((dictOf ((breaksFrom 0 (uniChunks tbl s)).zip (List.range (s.length + 1)))).find?
        (fun p => ((p.1 : Int) = a : Bool))).map (fun p => ((p.2 : Nat) : Int)) from rfl] at h
  rcases Option.map_eq_some'.1 h with ⟨p, hfind, hv⟩
  have hmem : p ∈ dictOf ((breaksFrom 0 (uniChunks tbl s)).zip (List.range (s.length + 1))) :=
    List.mem_of_find?_eq_some hfind
  have hprop := List.find?_some hfind
  have hka : (p.1 : Int) = a := by simpa using hprop
  have hz := mem_dictOf hmem
  rw [List.range_eq_range'] at hz
  obtain ⟨-, hget⟩ := mem_zip_range' _ _ _ hz
  exact ⟨p, ⟨hka, hv⟩, by simpa using hget⟩

theorem mkU2I_good (tbl : Char → Option (List Char)) (s : List Char) :
    U2IGood (mkU2I tbl s) := by
  refine ⟨?_, ?_, ?_⟩
  · intro a b hca hcb hab
    have ha : ((mkU2I tbl s).lookupI a).isSome := by
      unfold U2I.lookupI U2I.containsI mkU2I at *
      simp only [Bool.false_or] at hca
      simpa [List.find?_isSome, List.any_eq_true] using hca
    have hb : ((mkU2I tbl s).lookupI b).isSome := by
      unfold U2I.lookupI U2I.containsI mkU2I at *
      simp only [Bool.false_or] at hcb
      simpa [List.find?_isSome, List.any_eq_true] using hcb
    rcases Option.isSome_iff_exists.1 ha with ⟨va, hva⟩
    rcases Option.isSome_iff_exists.1 hb with ⟨vb, hvb⟩
    rcases mkU2I_lookup_pair hva with ⟨p, ⟨hpa, hpv⟩, hpg⟩
    rcases mkU2I_lookup_pair hvb with ⟨q, ⟨hqa, hqv⟩, hqg⟩
    have hgi : (mkU2I tbl s).getI a = va := by simp [U2I.getI, hva]
    have hgj : (mkU2I tbl s).getI b = vb := by simp [U2I.getI, hvb]
    rw [hgi, hgj]
    rcases eq_or_lt_of_le hab with heq | hlt
    · subst heq; rw [hva] at hvb; exact le_of_eq (by exact_mod_cast Option.some.inj hvb)
    · have hp1q1 : p.1 < q.1 := by
        have : (p.1 : Int) < (q.1 : Int) := by rw [hpa, hqa]; exact hlt
        exact_mod_cast this
      by_contra hcon
      have hvbva : vb < va := lt_of_not_le hcon
      have hqp : q.2 ≤ p.2 := by
        have : (q.2 : Int) ≤ (p.2 : Int) := by rw [hpv, hqv]; exact le_of_lt hvbva
        exact_mod_cast this
      have := sorted_get?_mono (breaksFrom_sorted (uniChunks tbl s) 0) hqp hqg hpg
      omega
  · intro a
    unfold U2I.lookupI U2I.containsI mkU2I
    simp [List.find?_isSome, List.any_eq_true]
  · intro a hca
    right
    have ha : ((mkU2I tbl s).lookupI a).isSome := by
      unfold U2I.lookupI U2I.containsI mkU2I at *
      simp only [Bool.false_or] at hca
      simpa [List.find?_isSome, List.any_eq_true] using hca
    rcases Option.isSome_iff_exists.1 ha with ⟨va, hva⟩
    rcases mkU2I_lookup_pair hva with ⟨p, ⟨-, hpv⟩, -⟩
    simp [U2I.getI, hva, ← hpv]

theorem identU2I_good : U2IGood identU2I := by
  refine ⟨?_, ?_, ?_⟩
  · intro a b _ _ hab; simpa [U2I.getI, U2I.lookupI, identU2I] using hab
  · intro a; simp [U2I.lookupI, U2I.containsI, identU2I]
  · intro a _; left; rfl

theorem keysList_contains (d : U2I) {k : Nat} (h : k ∈ d.keysList) :
    d.containsI (k : Int) = true := by
  unfold U2I.keysList at h
  rcases List.mem_map.1 h with ⟨p, hp, hpe⟩
  unfold U2I.containsI
  by_cases hi : d.ident = true
  · rw [hi, Bool.true_or]
  · rw [Bool.not_eq_true] at hi
    rw [hi, Bool.false_or, List.any_eq_true]
    exact ⟨p, hp, by rw [hpe]; simp⟩

theorem getI_of_lookup {d : U2I} {a v : Int} (h : d.lookupI a = some v) : d.getI a = v := by
  simp [U2I.getI, h]

theorem lookup_isSome_of_contains {d : U2I} (hg : U2IGood d) {a : Int}
    (h : d.containsI a = true) : (d.lookupI a).isSome :=
  (hg.2.1 a).2 h

theorem contains_of_lookup {d : U2I} (hg : U2IGood d) {a v : Int}
    (h : d.lookupI a = some v) : d.containsI a = true :=
  (hg.2.1 a).1 (by simp [h])

/-- The configuration built by `mkConfig` has a good index map, and it is
the identity map exactly when transliterated search is off. -/
theorem mkConfig_u2i_good (tbl : Char → Option (List Char)) (o : Opts) (s : List Char) :
    U2IGood (mkConfig tbl o s).u2i ∧
      ((mkConfig tbl o s).unidecodedSearch = true → (mkConfig tbl o s).u2i.ident = false) := by
  have h1 : (mkConfig tbl o s).u2i = (if o.unidecodedSearch then mkU2I tbl s else identU2I) := rfl
  have h2 : (mkConfig tbl o s).unidecodedSearch = o.unidecodedSearch := rfl
  rw [h1, h2]
  by_cases h : o.unidecodedSearch = true
  · rw [h, if_pos rfl]
    exact ⟨mkU2I_good tbl s, fun _ => rfl⟩
  · rw [Bool.not_eq_true] at h
    rw [h, if_neg (by simp)]
    exact ⟨identU2I_good, by simp⟩

/-! ### Run-loop invariants -/

/-- The configuration facts the loop invariants rest on: a good index map
that is the identity map exactly when transliterated search is off. -/
def CfgWF (cfg : URConfig) : Prop :=
  U2IGood cfg.u2i ∧ cfg.u2i.ident = (!cfg.unidecodedSearch)

theorem mkConfig_wf (tbl : Char → Option (List Char)) (o : Opts) (s : List Char) :
    CfgWF (mkConfig tbl o s) := by
  refine ⟨(mkConfig_u2i_good tbl o s).1, ?_⟩
  have h1 : (mkConfig tbl o s).u2i = (if o.unidecodedSearch then mkU2I tbl s else identU2I) := rfl
  have h2 : (mkConfig tbl o s).unidecodedSearch = o.unidecodedSearch := rfl
  rw [h1, h2]
  by_cases h : o.unidecodedSearch = true
  · rw [h, if_pos rfl]; rfl
  · rw [Bool.not_eq_true] at h
    rw [h, if_neg (by simp)]; rfl

/-- Invariant of an item's scan state: the position is `-1` or an aligned
offset satisfying the window-start side of `pos_is_good`; the key iterator
exists in transliterated mode and only ever holds aligned offsets. -/
def ItemInvS (cfg : URConfig) (st : SIState) : Prop :=
  -1 ≤ st.pos ∧
  (st.pos = -1 ∨ (0 ≤ st.pos ∧ cfg.u2i.containsI st.pos = true ∧
      (cfg.unidecodedSearch = true → cfg.posW ≤ cfg.u2i.getI st.pos))) ∧
  (cfg.unidecodedSearch = true → st.posIter.isSome) ∧
  (∀ l, st.posIter = some l → ∀ k ∈ l, cfg.u2i.containsI (k : Int) = true)

/-- Invariant of a pattern item's stored match: it passed `chunk_ok` and the
window-start check when it was stored. -/
def MInvS (cfg : URConfig) (st : SIState) : Prop :=
  ∀ um, st.m = some um →
    cfg.u2i.containsI um.ustart = true ∧ cfg.u2i.containsI um.uend = true ∧
    0 ≤ um.ustart ∧ um.ustart ≤ um.uend ∧
    (cfg.unidecodedSearch = true → cfg.posW ≤ cfg.u2i.getI um.ustart)

theorem minvs_of_m_eq {cfg : URConfig} {st st' : SIState} (h : MInvS cfg st)
    (he : st'.m = st.m) : MInvS cfg st' := fun um hum => h um (he ▸ hum)

theorem resetSearch_minv {cfg : URConfig} {st : SIState} (h : MInvS cfg st) :
    MInvS cfg (resetSearch cfg st).2 := minvs_of_m_eq h rfl

theorem resetSearch_inv (cfg : URConfig) (st : SIState) :
    ItemInvS cfg (resetSearch cfg st).2 := by
  refine ⟨by simp [resetSearch], Or.inl rfl, ?_, ?_⟩
  · intro hu
    simp [resetSearch, hu]
  · intro l hl k hk
    by_cases hu : cfg.unidecodedSearch = true
    · simp [resetSearch, hu] at hl
      exact keysList_contains cfg.u2i (hl ▸ hk)
    · rw [Bool.not_eq_true] at hu
      simp [resetSearch, hu] at hl

/-- Extract the window-start conjunct of `pos_is_good`. -/
theorem posIsGood_posW {cfg : URConfig} {st : SIState} {mp mi : Option Int}
    (h : posIsGood cfg st mp mi = true) : cfg.posW ≤ cfg.u2i.getI st.pos := by
  unfold posIsGood at h
  rw [Bool.and_eq_true] at h
  exact of_decide_eq_true h.2

theorem gnpIter_spec {cfg : URConfig} (mp mi : Option Int) :
    ∀ (ks : List Nat) (st : SIState),
      (∀ k ∈ ks, cfg.u2i.containsI (k : Int) = true) →
      (gnpIter cfg mp mi st ks).1 = (gnpIter cfg mp mi st ks).2.pos ∧
      ItemInvS cfg (gnpIter cfg mp mi st ks).2 ∧
      (gnpIter cfg mp mi st ks).2.m = st.m := by
  intro ks
  induction ks with
  | nil =>
    intro st _
    exact ⟨rfl, resetSearch_inv cfg st, rfl⟩
  | cons k ks ih =>
    intro st hks
    rw [gnpIter]
    by_cases h1 : cfg.u2i.getI (k : Int) ≥ cfg.endposW
    · rw [if_pos h1]
      exact ⟨rfl, resetSearch_inv cfg _, rfl⟩
    · rw [if_neg h1]
      by_cases h2 : posIsGood cfg { st with pos := (k : Int), posIter := some ks } mp mi = true
      · rw [if_pos h2]
        refine ⟨rfl, ⟨?_, ?_, ?_, ?_⟩, rfl⟩
        · show -1 ≤ ((k : Nat) : Int)
          omega
        · right
          refine ⟨by show (0 : Int) ≤ ((k : Nat) : Int); omega,
            hks k (List.mem_cons_self k ks), fun _ => posIsGood_posW h2⟩
        · exact fun _ => rfl
        · intro l hl j hj
          have hlk : ks = l := Option.some.inj hl
          have hj' : j ∈ ks := by rw [hlk]; exact hj
          exact hks j (List.mem_cons_of_mem k hj')
      · rw [if_neg h2]
        have := ih { st with pos := (k : Int), posIter := some ks }
          (fun j hj => hks j (List.mem_cons_of_mem k hj))
        exact ⟨this.1, this.2.1, this.2.2⟩

theorem getNextPos_spec {cfg : URConfig} (hc : CfgWF cfg) {st : SIState}
    (hst : ItemInvS cfg st) (mp mi : Option Int) :
    (getNextPos cfg st mp mi).1 = (getNextPos cfg st mp mi).2.pos ∧
    ItemInvS cfg (getNextPos cfg st mp mi).2 ∧
    (getNextPos cfg st mp mi).2.m = st.m := by
  unfold getNextPos
  by_cases h1 : ((mp.isSome || mi.isSome) && posIsGood cfg st mp mi) = true
  · rw [if_pos h1]
    by_cases h2 : cfg.u2i.getI st.pos < cfg.endposW
    · rw [if_pos h2]; exact ⟨rfl, hst, rfl⟩
    · rw [if_neg h2]; exact ⟨rfl, resetSearch_inv cfg st, rfl⟩
  · rw [if_neg h1]
    match hit : st.posIter with
    | none =>
      have huni : cfg.unidecodedSearch = false := by
        by_cases hu : cfg.unidecodedSearch = true
        · have := hst.2.2.1 hu
          rw [hit] at this
          cases this
        · rwa [Bool.not_eq_true] at hu
      by_cases h3 : st.pos + 1 ≥ (cfg.string.length : Int)
      · rw [if_pos h3]
        exact ⟨rfl, resetSearch_inv cfg _, rfl⟩
      · rw [if_neg h3]
        refine ⟨rfl, ⟨?_, ?_, ?_, ?_⟩, rfl⟩
        · show -1 ≤ st.pos + 1
          have := hst.1; omega
        · right
          refine ⟨by show (0 : Int) ≤ st.pos + 1; have := hst.1; omega, ?_, ?_⟩
          · show cfg.u2i.containsI (st.pos + 1) = true
            unfold U2I.containsI
            rw [hc.2, huni]
            rfl
          · intro hu; rw [hu] at huni; cases huni
        · intro hu; rw [hu] at huni; cases huni
        · intro l hl
          exact Option.noConfusion (show (none : Option (List Nat)) = some l from hl)
    | some ks =>
      exact gnpIter_spec mp mi ks st (hst.2.2.2 ks hit)

theorem itemInvS_fields {cfg : URConfig} {st st' : SIState} (h : ItemInvS cfg st)
    (hp : st'.pos = st.pos) (hi : st'.posIter = st.posIter) : ItemInvS cfg st' := by
  refine ⟨hp ▸ h.1, hp ▸ h.2.1, ?_, ?_⟩
  · intro hu; rw [hi]; exact h.2.2.1 hu
  · intro l hl; rw [hi] at hl; exact h.2.2.2 l hl

theorem strIndexFrom_nonneg {hay needle : List Char} {start i : Int}
    (h : strIndexFrom hay needle start = some i) : 0 ≤ i := by
  simp only [strIndexFrom] at h
  rcases Option.map_eq_some'.1 h with ⟨n, hf, hn⟩
  rcases Option.bind_eq_some.1 hf with ⟨a, -, hpa⟩
  have hna : ((a : Nat) : Int) = n := Option.some.inj hpa
  subst hn
  show (0 : Int) ≤ n
  omega

/-- The variant-specific well-formedness construction guarantees: a string
item's search text is nonempty, a pattern item's compiled search is sane. -/
def KindWF : SIKind → Prop
  | .strK s => s ≠ []
  | .reK p _ => SearchSane p

/-- Full invariant of one search item. -/
def ItemOK (cfg : URConfig) (it : SearchItem) : Prop :=
  ItemInvS cfg it.st ∧ MInvS cfg it.st ∧ KindWF it.kind

/-- A just-matched item: its current candidate passed `chunk_ok`.  All
items are in this state while overlaps are allowed (they are re-advanced by
`next()` in the same loop iteration that uses them). -/
def Fresh (cfg : URConfig) (it : SearchItem) : Prop :=
  match it.kind with
  | .strK s => 0 ≤ it.st.pos ∧ chunkOk cfg it.st.pos (it.st.pos + (s.length : Int)) = true
  | .reK _ _ => ∃ um, it.st.m = some um ∧ it.st.pos = um.ustart ∧
      chunkOk cfg um.ustart um.uend = true ∧ 0 ≤ um.ustart

theorem strNextLoop_spec {cfg : URConfig} (hc : CfgWF cfg) (search hay : List Char) :
    ∀ (fuel : Nat) (pos : Int) (st : SIState), ItemInvS cfg st → MInvS cfg st →
      ItemInvS cfg (strNextLoop cfg search hay fuel pos st).2 ∧
      MInvS cfg (strNextLoop cfg search hay fuel pos st).2 ∧
      (0 ≤ (strNextLoop cfg search hay fuel pos st).1 →
        (strNextLoop cfg search hay fuel pos st).2.pos =
            (strNextLoop cfg search hay fuel pos st).1 ∧
        chunkOk cfg (strNextLoop cfg search hay fuel pos st).1
          ((strNextLoop cfg search hay fuel pos st).1 + (search.length : Int)) = true) := by
  intro fuel
  induction fuel with
  | zero =>
    intro pos st hst hm
    exact ⟨hst, hm, fun h => absurd h (by simp [strNextLoop])⟩
  | succ fuel ih =>
    intro pos st hst hm
    rcases hidx : strIndexFrom hay search pos with - | hit
    · simp only [strNextLoop, hidx]
      exact ⟨resetSearch_inv cfg st, resetSearch_minv hm,
        fun h => absurd h (by simp [resetSearch])⟩
    · simp only [strNextLoop, hidx]
      have hg1 := getNextPos_spec hc hst (some hit) none
      split
      case isTrue hcond =>
        rw [Bool.and_eq_true] at hcond
        refine ⟨hg1.2.1, minvs_of_m_eq hm hg1.2.2, fun _ => ⟨?_, hcond.2⟩⟩
        show (getNextPos cfg st (some hit) none).2.pos = hit
        rw [← hg1.1, ← of_decide_eq_true hcond.1]
      case isFalse hcond =>
        have hg2 := getNextPos_spec hc hg1.2.1 (some (hit + 1)) none
        split
        case isTrue hneg =>
          refine ⟨hg2.2.1, minvs_of_m_eq hm ?_, fun h => absurd h (by simp)⟩
          rw [hg2.2.2, hg1.2.2]
        case isFalse hneg =>
          exact ih _ _ hg2.2.1 (minvs_of_m_eq hm (by rw [hg2.2.2, hg1.2.2]))

theorem reNextLoop_spec {cfg : URConfig} (hc : CfgWF cfg) {p : RePattern}
    (hsane : SearchSane p) (hay : List Char) :
    ∀ (fuel : Nat) (pos : Int) (st : SIState), ItemInvS cfg st → MInvS cfg st →
      ItemInvS cfg (reNextLoop cfg p hay fuel pos st).2 ∧
      MInvS cfg (reNextLoop cfg p hay fuel pos st).2 ∧
      (0 ≤ (reNextLoop cfg p hay fuel pos st).1 →
        ∃ um, (reNextLoop cfg p hay fuel pos st).2.m = some um ∧
          (reNextLoop cfg p hay fuel pos st).2.pos = (reNextLoop cfg p hay fuel pos st).1 ∧
          (reNextLoop cfg p hay fuel pos st).1 = um.ustart ∧
          chunkOk cfg um.ustart um.uend = true ∧ 0 ≤ um.ustart) := by
  intro fuel
  induction fuel with
  | zero =>
    intro pos st hst hm
    exact ⟨hst, hm, fun h => absurd h (by simp [reNextLoop])⟩
  | succ fuel ih =>
    intro pos st hst hm
    rcases hsr : p.search hay pos with - | um
    · simp only [reNextLoop, hsr]
      refine ⟨itemInvS_fields hst rfl rfl, ?_, fun h => absurd h (by simp)⟩
      intro um hum
      exact Option.noConfusion (show (none : Option UniMatch) = some um from hum)
    · simp only [reNextLoop, hsr]
      have hg1 := getNextPos_spec hc hst (some um.ustart) none
      have hum0 : 0 ≤ um.ustart := (hsane hay pos um hsr).1
      have humle : um.ustart ≤ um.uend := (hsane hay pos um hsr).2
      split
      case isTrue hcond =>
        rw [Bool.and_eq_true] at hcond
        have hpos : (getNextPos cfg st (some um.ustart) none).2.pos = um.ustart := by
          rw [← hg1.1, ← of_decide_eq_true hcond.1]
        have hco := hcond.2
        rw [chunkOk, Bool.and_eq_true] at hco
        refine ⟨itemInvS_fields hg1.2.1 rfl rfl, ?_, fun _ => ⟨um, rfl, hpos, rfl, hcond.2, hum0⟩⟩
        intro um' hum'
        have humeq : um = um' := Option.some.inj hum'
        subst humeq
        refine ⟨hco.1, hco.2, hum0, humle, ?_⟩
        intro hu
        rcases hg1.2.1.2.1 with hcase | hcase
        · rw [hpos] at hcase; omega
        · have := hcase.2.2 hu
          rwa [hpos] at this
      case isFalse hcond =>
        have hg2 := getNextPos_spec hc hg1.2.1 (some (um.ustart + 1)) none
        split
        case isTrue hneg =>
          refine ⟨hg2.2.1, minvs_of_m_eq hm ?_, fun h => absurd h (by simp)⟩
          rw [hg2.2.2, hg1.2.2]
        case isFalse hneg =>
          exact ih _ _ hg2.2.1 (minvs_of_m_eq hm (by rw [hg2.2.2, hg1.2.2]))

theorem fresh_strK {cfg : URConfig} {it : SearchItem} {search : List Char}
    (hk : it.kind = .strK search) (h1 : 0 ≤ it.st.pos)
    (h2 : chunkOk cfg it.st.pos (it.st.pos + (search.length : Int)) = true) :
    Fresh cfg it := by
  unfold Fresh
  rw [hk]
  exact ⟨h1, h2⟩

theorem fresh_reK {cfg : URConfig} {it : SearchItem} {p : RePattern} {cs : Bool}
    {um : UniMatch} (hk : it.kind = .reK p cs) (h1 : it.st.m = some um)
    (h2 : it.st.pos = um.ustart) (h3 : chunkOk cfg um.ustart um.uend = true)
    (h4 : 0 ≤ um.ustart) : Fresh cfg it := by
  unfold Fresh
  rw [hk]
  exact ⟨um, h1, h2, h3, h4⟩

theorem itemOK_mk {cfg : URConfig} {it it' : SearchItem} (hk : it'.kind = it.kind)
    (h1 : ItemInvS cfg it'.st) (h2 : MInvS cfg it'.st) (hwf : KindWF it.kind) :
    ItemOK cfg it' := ⟨h1, h2, hk ▸ hwf⟩

theorem siNext_spec {cfg : URConfig} (hc : CfgWF cfg) {it : SearchItem}
    (hok : ItemOK cfg it) :
    ItemOK cfg (siNext cfg it).2 ∧ (siNext cfg it).2.kind = it.kind ∧
    (siNext cfg it).2.sub = it.sub ∧
    (0 ≤ (siNext cfg it).1 → Fresh cfg (siNext cfg it).2 ∧
      (siNext cfg it).2.st.pos = (siNext cfg it).1) := by
  obtain ⟨hinv, hm, hwf⟩ := hok
  have hseed : ItemInvS cfg (if it.st.pos ≥ 0 then (it.st.pos, it.st)
      else getNextPos cfg it.st none none).2 ∧
      (if it.st.pos ≥ 0 then (it.st.pos, it.st)
      else getNextPos cfg it.st none none).2.m = it.st.m := by
    by_cases h : it.st.pos ≥ 0
    · rw [if_pos h]; exact ⟨hinv, rfl⟩
    · rw [if_neg h]
      exact ⟨(getNextPos_spec hc hinv none none).2.1, (getNextPos_spec hc hinv none none).2.2⟩
  have hmseed := minvs_of_m_eq hm hseed.2
  set S := (if it.st.pos ≥ 0 then (it.st.pos, it.st) else getNextPos cfg it.st none none)
    with hS
  rcases hk : it.kind with ⟨search⟩ | ⟨p, cs⟩
  · set R := strNextLoop cfg search (it.uniStr cfg) ((it.uniStr cfg).length + 2) S.1 S.2
      with hR
    have hs := strNextLoop_spec hc search (it.uniStr cfg) ((it.uniStr cfg).length + 2) S.1 S.2
      hseed.1 hmseed
    rw [← hR] at hs
    have hsn : siNext cfg it = (R.1, { it with st := R.2 }) := by
      rw [hR, hS]
      simp only [siNext, hk]
    rw [hsn]
    refine ⟨⟨hs.1, hs.2.1, ?_⟩, hk, rfl, ?_⟩
    · show KindWF it.kind
      exact hwf
    · intro hpos
      have hpos' : 0 ≤ R.1 := hpos
      have hsp := hs.2.2 hpos'
      refine ⟨@fresh_strK cfg _ search hk ?_ ?_, hsp.1⟩
      · show 0 ≤ R.2.pos
        rw [hsp.1]; exact hpos'
      · show chunkOk cfg R.2.pos (R.2.pos + (search.length : Int)) = true
        rw [hsp.1]; exact hsp.2
  · have hsane : SearchSane p := by rw [hk] at hwf; exact hwf
    set R := reNextLoop cfg p (it.uniStr cfg) ((it.uniStr cfg).length + 2) S.1 S.2
      with hR
    have hs := reNextLoop_spec hc hsane (it.uniStr cfg) ((it.uniStr cfg).length + 2) S.1 S.2
      hseed.1 hmseed
    rw [← hR] at hs
    have hsn : siNext cfg it = (R.1, { it with st := R.2 }) := by
      rw [hR, hS]
      simp only [siNext, hk]
    rw [hsn]
    refine ⟨⟨hs.1, hs.2.1, ?_⟩, hk, rfl, ?_⟩
    · show KindWF it.kind
      exact hwf
    · intro hpos
      have hpos' : 0 ≤ R.1 := hpos
      rcases hs.2.2 hpos' with ⟨um, humm, hump, humeq, humc, hum0⟩
      refine ⟨@fresh_reK cfg _ p cs um hk humm ?_ humc hum0, hump⟩
      show R.2.pos = um.ustart
      rw [hump, humeq]

/-! ### List-level invariants and per-event facts -/

/-- Every active item is well-formed; while overlaps are allowed every
active item is freshly matched. -/
def ItemsOK (cfg : URConfig) (items : List SearchItem) : Prop :=
  ∀ it ∈ items, ItemOK cfg it ∧ (cfg.allowOverlaps = true → Fresh cfg it)

/-- The loop's `last_pos` stays non-negative, and in transliterated mode it
is `0` or at least the window start. -/
def LastOK (cfg : URConfig) (l : Int) : Prop :=
  0 ≤ l ∧ (cfg.unidecodedSearch = true → l = 0 ∨ cfg.posW ≤ l)

/-- Facts holding of every emitted replacement. -/
structure EventOKP (cfg : URConfig) (e : REvent) : Prop where
  cuS : cfg.u2i.containsI e.uStart = true
  cuE : cfg.u2i.containsI e.uEnd = true
  uLe : e.uStart ≤ e.uEnd
  mS : e.mStart = cfg.u2i.getI e.uStart
  mE : e.mEnd = cfg.u2i.getI e.uEnd
  mS0 : 0 ≤ e.mStart
  mLe : e.mStart ≤ e.mEnd
  mSeS : e.mStart ≤ e.eStart
  posW : cfg.unidecodedSearch = true → cfg.posW ≤ e.mStart

/-- The emitted spans chain: each emitted start clears the `last_pos` in
force when it was emitted, which the previous event set to its span end. -/
def EventsChain (l : Int) : List REvent → Prop
  | [] => True
  | e :: es => l ≤ e.eStart ∧ EventsChain e.mEnd es

/-- The final `last_pos` of a run. -/
def lastEnd (l : Int) : List REvent → Int
  | [] => l
  | e :: es => lastEnd e.mEnd es

theorem argminAux_mem :
    ∀ (xs : List SearchItem) (i : Nat) (b : Nat × SearchItem),
      (argminAux xs i b).2 = b.2 ∨ (argminAux xs i b).2 ∈ xs := by
  intro xs
  induction xs with
  | nil => intro i b; exact Or.inl rfl
  | cons x xs ih =>
    intro i b
    rw [argminAux]
    by_cases hx : x.st.pos < b.2.st.pos
    · rw [if_pos hx]
      rcases ih (i + 1) (i, x) with h | h
      · exact Or.inr (by rw [h]; exact List.mem_cons_self x xs)
      · exact Or.inr (List.mem_cons_of_mem x h)
    · rw [if_neg hx]
      rcases ih (i + 1) b with h | h
      · exact Or.inl h
      · exact Or.inr (List.mem_cons_of_mem x h)

theorem set_eraseIdx_same :
    ∀ (l : List SearchItem) (i : Nat) (x : SearchItem),
      (l.set i x).eraseIdx i = l.eraseIdx i := by
  intro l
  induction l with
  | nil => intro i x; rfl
  | cons y ys ih =>
    intro i x
    cases i with
    | zero => rfl
    | succ j =>
      show (y :: ys.set j x).eraseIdx (j + 1) = (y :: ys).eraseIdx (j + 1)
      rw [List.eraseIdx_cons_succ, List.eraseIdx_cons_succ, ih]

theorem contains_nonneg {d : U2I} {a : Int} (hi : d.ident = false)
    (h : d.containsI a = true) : 0 ≤ a := by
  unfold U2I.containsI at h
  rw [hi, Bool.false_or, List.any_eq_true] at h
  rcases h with ⟨p, -, hp⟩
  have : ((p.1 : Nat) : Int) = a := of_decide_eq_true hp
  omega

/-- The span read by `get_start_end` at an emission, with all the facts the
event invariant needs.  An emission happens only when the candidate start
clears `last_pos` or overlaps are allowed; in either case the span is a
validated one. -/
theorem getStartEnd_facts {cfg : URConfig} (hc : CfgWF cfg) {it : SearchItem}
    {lastPos : Int} (hok : ItemOK cfg it) (hfr : cfg.allowOverlaps = true → Fresh cfg it)
    (hlast : LastOK cfg lastPos)
    (hemit : (getStartEnd cfg it).1 ≥ lastPos ∨ cfg.allowOverlaps = true) :
    EventOKP cfg ⟨(uSpanOf it).1, (uSpanOf it).2, (getStartEnd cfg it).1,
      (getStartEnd cfg it).2,
      if lastPos > (getStartEnd cfg it).1 then lastPos else (getStartEnd cfg it).1⟩ := by
  obtain ⟨hinv, hm, hwf⟩ := hok
  have hmono := hc.1.1
  rcases hk : it.kind with ⟨search⟩ | ⟨p, cs⟩
  · -- string item: both boundaries looked up in `u2i`
    have hgse : getStartEnd cfg it =
        (match cfg.u2i.lookupI it.st.pos,
               cfg.u2i.lookupI (it.st.pos + (search.length : Int)) with
         | some a, some b => (a, b)
         | _, _ => ((-1 : Int), (-1 : Int))) := by
      unfold getStartEnd
      rw [hk]
    have huS : uSpanOf it = (it.st.pos, it.st.pos + (search.length : Int)) := by
      unfold uSpanOf
      rw [hk]
    rcases hla : cfg.u2i.lookupI it.st.pos with - | a
    · -- start lookup fails: the emission condition is contradictory
      exfalso
      rcases hemit with hge | hov
      · rw [hgse, hla] at hge
        have h0 := hlast.1
        rcases hlb : cfg.u2i.lookupI (it.st.pos + (search.length : Int)) with - | b <;>
          rw [hlb] at hge <;> simp at hge <;> omega
      · have hf := hfr hov
        unfold Fresh at hf
        rw [hk] at hf
        simp only [chunkOk, Bool.and_eq_true] at hf
        have := lookup_isSome_of_contains hc.1 hf.2.1
        rw [hla] at this
        cases this
    · rcases hlb : cfg.u2i.lookupI (it.st.pos + (search.length : Int)) with - | b
      · exfalso
        rcases hemit with hge | hov
        · rw [hgse, hla, hlb] at hge
          simp at hge
          have h0 := hlast.1
          omega
        · have hf := hfr hov
          unfold Fresh at hf
          rw [hk] at hf
          simp only [chunkOk, Bool.and_eq_true] at hf
          have := lookup_isSome_of_contains hc.1 hf.2.2
          rw [hlb] at this
          cases this
      · have hse : getStartEnd cfg it = (a, b) := by rw [hgse, hla, hlb]
        have hca := contains_of_lookup hc.1 hla
        have hcb := contains_of_lookup hc.1 hlb
        have hga : cfg.u2i.getI it.st.pos = a := getI_of_lookup hla
        have hgb : cfg.u2i.getI (it.st.pos + (search.length : Int)) = b := getI_of_lookup hlb
        have hab : a ≤ b := by
          have := hmono it.st.pos (it.st.pos + (search.length : Int)) hca hcb (by omega)
          rwa [hga, hgb] at this
        have ha0 : 0 ≤ a := by
          rcases Bool.eq_false_or_eq_true cfg.u2i.ident with hid | hid
          · -- identity map: `a` is the position itself
            have : cfg.u2i.getI it.st.pos = it.st.pos := by
              unfold U2I.getI U2I.lookupI
              rw [hid]
              rfl
            rw [hga] at this
            subst this
            rcases hemit with hge | hov
            · rw [hse] at hge
              have := hlast.1
              omega
            · have hf := hfr hov
              unfold Fresh at hf
              rw [hk] at hf
              exact hf.1
          · rcases hc.1.2.2 _ hca with hcon | hcon
            · rw [hid] at hcon; cases hcon
            · rwa [hga] at hcon
        have hposW : cfg.unidecodedSearch = true → cfg.posW ≤ a := by
          intro hu
          have hid : cfg.u2i.ident = false := by rw [hc.2, hu]; rfl
          have hp0 : 0 ≤ it.st.pos := contains_nonneg hid hca
          rcases hinv.2.1 with hcase | hcase
          · omega
          · have := hcase.2.2 hu
            rwa [hga] at this
        rw [hse, huS]
        refine ⟨hca, hcb, ?_, hga.symm, hgb.symm, ?_, ?_, ?_, ?_⟩
        · show it.st.pos ≤ it.st.pos + (search.length : Int)
          omega
        · show (0 : Int) ≤ a
          exact ha0
        · show a ≤ b
          exact hab
        · show a ≤ (if lastPos > a then lastPos else a)
          by_cases hcl : lastPos > a
          · rw [if_pos hcl]; omega
          · rw [if_neg hcl]
        · intro hu
          show cfg.posW ≤ a
          exact hposW hu
  · -- pattern item: the span of the stored match
    rcases hmm : it.st.m with - | um
    · exfalso
      have hgse : getStartEnd cfg it = (-1, -1) := by
        unfold getStartEnd
        rw [hk, hmm]
      rcases hemit with hge | hov
      · rw [hgse] at hge
        have := hlast.1
        simp at hge
        omega
      · have hf := hfr hov
        unfold Fresh at hf
        rw [hk] at hf
        rcases hf with ⟨um, hum, -⟩
        rw [hmm] at hum
        cases hum
    · obtain ⟨hcs, hce, hu0, hule, hupw⟩ := hm um hmm
      have hgse : getStartEnd cfg it = (cfg.u2i.getI um.ustart, cfg.u2i.getI um.uend) := by
        unfold getStartEnd
        rw [hk, hmm]
        show ((if um.ustart < 0 then -1 else cfg.u2i.getI um.ustart),
              (if um.uend < 0 then -1 else cfg.u2i.getI um.uend)) = _
        rw [if_neg (by omega), if_neg (by omega)]
      have huS : uSpanOf it = (um.ustart, um.uend) := by
        unfold uSpanOf
        rw [hk, hmm]
      have hab : cfg.u2i.getI um.ustart ≤ cfg.u2i.getI um.uend :=
        hmono um.ustart um.uend hcs hce hule
      have ha0 : 0 ≤ cfg.u2i.getI um.ustart := by
        rcases Bool.eq_false_or_eq_true cfg.u2i.ident with hid | hid
        · have : cfg.u2i.getI um.ustart = um.ustart := by
            unfold U2I.getI U2I.lookupI
            rw [hid]
            rfl
          omega
        · rcases hc.1.2.2 _ hcs with hcon | hcon
          · rw [hid] at hcon; cases hcon
          · exact hcon
      rw [hgse, huS]
      refine ⟨hcs, hce, hule, rfl, rfl, ?_, ?_, ?_, ?_⟩
      · show (0 : Int) ≤ cfg.u2i.getI um.ustart
        exact ha0
      · show cfg.u2i.getI um.ustart ≤ cfg.u2i.getI um.uend
        exact hab
      · show cfg.u2i.getI um.ustart ≤
          (if lastPos > cfg.u2i.getI um.ustart then lastPos else cfg.u2i.getI um.ustart)
        by_cases hcl : lastPos > cfg.u2i.getI um.ustart
        · rw [if_pos hcl]; omega
        · rw [if_neg hcl]
      · intro hu
        show cfg.posW ≤ cfg.u2i.getI um.ustart
        exact hupw hu

/-- The facts the claims need about one run of the loop: every event is
well-formed, events chain, without overlaps no start is clamped, the final
`last_pos` is the last span end, and the loop output starts with the
untouched text up to the first emitted start. -/
structure RunFacts (cfg : URConfig) (lastPos : Int)
    (r : List Char × List REvent × Int) : Prop where
  evOK : ∀ e ∈ r.2.1, EventOKP cfg e
  chain : EventsChain lastPos r.2.1
  noClamp : cfg.allowOverlaps = false → ∀ e ∈ r.2.1, e.eStart = e.mStart
  fin : r.2.2 = lastEnd lastPos r.2.1
  emptyBody : r.2.1 = [] → r.1 = []
  headBody : ∀ e es, r.2.1 = e :: es → ∃ t, r.1 = pySlice cfg.string lastPos e.eStart ++ t

theorem runFacts_base {cfg : URConfig} (lastPos : Int) :
    RunFacts cfg lastPos ([], [], lastPos) := by
  refine ⟨?_, trivial, ?_, rfl, fun _ => rfl, ?_⟩
  · intro e he; cases he
  · intro _ e he; cases he
  · intro e es h; cases h

theorem runFacts_single {cfg : URConfig} {lastPos : Int} {ev : REvent} (sb : List Char)
    (hev : EventOKP cfg ev) (hstart : lastPos ≤ ev.eStart)
    (hnc : cfg.allowOverlaps = false → ev.eStart = ev.mStart) :
    RunFacts cfg lastPos (pySlice cfg.string lastPos ev.eStart ++ sb, [ev], ev.mEnd) := by
  refine ⟨?_, ⟨hstart, trivial⟩, ?_, rfl, ?_, ?_⟩
  · intro e he
    rcases List.mem_singleton.1 he with rfl
    exact hev
  · intro ho e he
    rcases List.mem_singleton.1 he with rfl
    exact hnc ho
  · intro h; cases h
  · intro e es h
    injection h with h1 h2
    subst h1
    exact ⟨sb, rfl⟩

theorem runFacts_cons {cfg : URConfig} {lastPos : Int} {ev : REvent} (sb : List Char)
    {rest : List Char × List REvent × Int}
    (hev : EventOKP cfg ev) (hstart : lastPos ≤ ev.eStart)
    (hnc : cfg.allowOverlaps = false → ev.eStart = ev.mStart)
    (hrest : RunFacts cfg ev.mEnd rest) :
    RunFacts cfg lastPos
      ((pySlice cfg.string lastPos ev.eStart ++ sb) ++ rest.1, ev :: rest.2.1, rest.2.2) := by
  refine ⟨?_, ⟨hstart, hrest.chain⟩, ?_, hrest.fin, ?_, ?_⟩
  · intro e he
    rcases List.mem_cons.1 he with rfl | hmem
    · exact hev
    · exact hrest.evOK e hmem
  · intro ho e he
    rcases List.mem_cons.1 he with rfl | hmem
    · exact hnc ho
    · exact hrest.noClamp ho e hmem
  · intro h; cases h
  · intro e es h
    injection h with h1 h2
    subst h1
    exact ⟨sb ++ rest.1, by rw [List.append_assoc]⟩

theorem itemsOK_set {cfg : URConfig} {items : List SearchItem} {i : Nat} {x : SearchItem}
    (h : ItemsOK cfg items)
    (hx : ItemOK cfg x ∧ (cfg.allowOverlaps = true → Fresh cfg x)) :
    ItemsOK cfg (items.set i x) := by
  intro it hit
  rcases List.mem_or_eq_of_mem_set hit with h1 | h1
  · exact h it h1
  · exact h1 ▸ hx

theorem itemsOK_eraseIdx {cfg : URConfig} {items : List SearchItem} {i : Nat}
    (h : ItemsOK cfg items) : ItemsOK cfg (items.eraseIdx i) :=
  fun it hit => h it ((List.eraseIdx_sublist items i).subset hit)

theorem itemOK_gnp {cfg : URConfig} (hc : CfgWF cfg) {it : SearchItem} (h : ItemOK cfg it)
    (mp mi : Option Int) : ItemOK cfg { it with st := (getNextPos cfg it.st mp mi).2 } := by
  obtain ⟨h1, h2, h3⟩ := h
  have hs := getNextPos_spec hc h1 mp mi
  exact ⟨hs.2.1, minvs_of_m_eq h2 hs.2.2, h3⟩

theorem itemsOK_skipKept {cfg : URConfig} (hc : CfgWF cfg) {items : List SearchItem}
    {lp : Int} (h : ∀ it ∈ items, ItemOK cfg it) (hov : cfg.allowOverlaps = false) :
    ItemsOK cfg (((skipOverlapsMapped cfg lp items).filter
      (fun pr => decide (pr.1 ≠ -1))).map (fun pr => pr.2)) := by
  intro it hit
  rcases List.mem_map.1 hit with ⟨pr, hprf, hpr2⟩
  have hprm : pr ∈ skipOverlapsMapped cfg lp items := (List.mem_filter.1 hprf).1
  rcases List.mem_map.1 hprm with ⟨it0, hit0, hit0e⟩
  refine ⟨?_, fun ho => absurd ho (by rw [hov]; simp)⟩
  have hok0 := h it0 hit0
  have := itemOK_gnp hc hok0 none (some lp)
  rw [← hpr2, ← hit0e]
  exact this

theorem lastOK_of_event {cfg : URConfig} {e : REvent} (hev : EventOKP cfg e) :
    LastOK cfg e.mEnd :=
  ⟨le_trans hev.mS0 hev.mLe, fun hu => Or.inr (le_trans (hev.posW hu) hev.mLe)⟩

theorem itemsOK_runStepNoEmit {cfg : URConfig} (hc : CfgWF cfg)
    {items : List SearchItem} {siIdx : Nat} {item : SearchItem}
    (hio : ItemsOK cfg items) (hit : ItemOK cfg item) :
    ItemsOK cfg (runStepNoEmit cfg items siIdx item) := by
  simp only [runStepNoEmit]
  have hnx := siNext_spec hc hit
  split
  case isTrue h =>
    rw [set_eraseIdx_same]
    exact itemsOK_eraseIdx hio
  case isFalse h =>
    refine itemsOK_set hio ⟨hnx.1, fun _ => ?_⟩
    exact (hnx.2.2.2 (by omega)).1

theorem itemsOK_runStepOverlap {cfg : URConfig} (hc : CfgWF cfg)
    {items : List SearchItem} {siIdx : Nat} {item : SearchItem} {pos : Int}
    (hio : ItemsOK cfg items) (hit : ItemOK cfg item) :
    ItemsOK cfg (runStepOverlap cfg items siIdx item pos) := by
  simp only [runStepOverlap]
  have hgA := itemOK_gnp hc hit none (some (pos + 1))
  have hnx := siNext_spec hc hgA
  split
  case isTrue h =>
    rw [set_eraseIdx_same]
    exact itemsOK_eraseIdx hio
  case isFalse h =>
    refine itemsOK_set hio ⟨hnx.1, fun _ => ?_⟩
    exact (hnx.2.2.2 (by omega)).1

theorem itemsOK_runStepSkip {cfg : URConfig} (hc : CfgWF cfg)
    {items : List SearchItem} {siIdx : Nat} {item : SearchItem} {lastPos : Int}
    (hio : ItemsOK cfg items) (hit : ItemOK cfg item)
    (hov : cfg.allowOverlaps = false) :
    ItemsOK cfg (runStepSkip cfg items siIdx item lastPos) := by
  simp only [runStepSkip]
  have hkept := @itemsOK_skipKept cfg hc items lastPos (fun i h => (hio i h).1) hov
  have hchG := itemOK_gnp hc hit none (some lastPos)
  have hnx := siNext_spec hc hchG
  have hfresh : cfg.allowOverlaps = true → Fresh cfg (siNext cfg
      { item with st := (getNextPos cfg item.st none (some lastPos)).2 }).2 :=
    fun h => absurd h (by rw [hov]; simp)
  split
  case isTrue h =>
    refine itemsOK_eraseIdx ?_
    split
    case isTrue hkeep =>
      exact itemsOK_set hkept ⟨hnx.1, hfresh⟩
    case isFalse hkeep =>
      exact hkept
  case isFalse h =>
    split
    case isTrue hkeep =>
      exact itemsOK_set hkept ⟨hnx.1, hfresh⟩
    case isFalse hkeep =>
      exact hkept

/-- Every item a successful construction returns is well-formed (for
pattern items this rests on the engine compiling sane patterns) and starts
with no stored match. -/
theorem getSearchItem_wf {tbl : Char → Option (List Char)} {re : ReEngine} {o : Opts}
    {sIn : SearchIn} {sb : Sub} {it : SearchItem} (hcs : CompileSane re)
    (h : getSearchItem tbl re o sIn sb = .ok it) :
    KindWF it.kind ∧ it.st.m = none := by
  rcases sIn with txt | p
  · simp only [getSearchItem] at h
    by_cases hr : o.reSearch = true
    · rw [if_pos hr] at h
      simp only [mkItemRegex] at h
      repeat' split at h
      all_goals first
        | exact Except.noConfusion h
        | (have heq := Except.ok.inj h
           subst heq
           exact ⟨hcs _ _, rfl⟩)
    · rw [if_neg hr] at h
      simp only [mkItemStr] at h
      repeat' split at h
      all_goals first
        | exact Except.noConfusion h
        | (rename_i hemp
           have heq := Except.ok.inj h
           subst heq
           refine ⟨?_, rfl⟩
           intro hnil
           exact hemp (by rw [hnil]; rfl))
  · simp only [getSearchItem, mkItemRegex] at h
    repeat' split at h
    all_goals first
      | exact Except.noConfusion h
      | (have heq := Except.ok.inj h
         subst heq
         exact ⟨hcs _ _, rfl⟩)

theorem collectItems_wf {f : α → Except URError SearchItem}
    (hf : ∀ a it, f a = .ok it → KindWF it.kind ∧ it.st.m = none) :
    ∀ {l : List α} {res : List SearchItem}, collectItems f l = .ok res →
      ∀ it ∈ res, KindWF it.kind ∧ it.st.m = none := by
  intro l
  induction l with
  | nil =>
    intro res h it hit
    have : ([] : List SearchItem) = res := Except.ok.inj h
    subst this
    cases hit
  | cons x xs ih =>
    intro res h it hit
    unfold collectItems at h
    split at h
    · cases h
    case h_2 it0 hx =>
      split at h
      · cases h
      case h_2 its hxs =>
        have := Except.ok.inj h
        subst this
        rcases List.mem_cons.1 hit with rfl | hmem
        · exact hf x it hx
        · exact ih hxs it hmem

theorem getSearchItems_wf {tbl : Char → Option (List Char)} {re : ReEngine} {o : Opts}
    {searches : List SearchIn} {subs : List Sub} {res : List SearchItem}
    (hcs : CompileSane re) (h : getSearchItems tbl re o searches subs = .ok res) :
    ∀ it ∈ res, KindWF it.kind ∧ it.st.m = none := by
  unfold getSearchItems at h
  split at h
  · cases h
  · split at h
    · exact collectItems_wf (fun a it ha => getSearchItem_wf hcs ha) h
    · split at h
      · exact collectItems_wf (fun a it ha => getSearchItem_wf hcs ha) h
      · cases h

/-- The items the priming step keeps are well-formed and freshly matched. -/
theorem initItems_ok {cfg : URConfig} (hc : CfgWF cfg) {items : List SearchItem}
    (hwf : ∀ it ∈ items, KindWF it.kind ∧ it.st.m = none) :
    ItemsOK cfg (initItems cfg items) := by
  intro it hit
  unfold initItems at hit
  rcases List.mem_filterMap.1 hit with ⟨pr, hpr, hkeep⟩
  rcases List.mem_map.1 hpr with ⟨it0, hit0, hit0e⟩
  have hw0 := hwf it0 hit0
  have hok0 : ItemOK cfg { it0 with st := (resetSearch cfg it0.st).2 } := by
    refine ⟨resetSearch_inv cfg it0.st, ?_, hw0.1⟩
    intro um hum
    rw [show (resetSearch cfg it0.st).2.m = it0.st.m from rfl, hw0.2] at hum
    cases hum
  have hnx := siNext_spec hc hok0
  by_cases hge : pr.1 ≥ 0
  · rw [if_pos hge] at hkeep
    have hit' : pr.2 = it := Option.some.inj hkeep
    have hfr := hnx.2.2.2 (by rw [← hit0e] at hge; exact hge)
    rw [← hit0e] at hit'
    subst hit'
    exact ⟨hnx.1, fun _ => hfr.1⟩
  · rw [if_neg hge] at hkeep
    cases hkeep

/-- The master induction over the run loop: from well-formed state, every
fuel amount yields a run satisfying `RunFacts`. -/
theorem runAux_master {cfg : URConfig} (hc : CfgWF cfg) :
    ∀ (fuel : Nat) (items : List SearchItem) (lastPos : Int) (cnt : Option Int),
      ItemsOK cfg items → LastOK cfg lastPos →
      RunFacts cfg lastPos (runAux cfg fuel items lastPos cnt) := by
  intro fuel
  induction fuel with
  | zero =>
    intro items lastPos cnt _ _
    exact runFacts_base lastPos
  | succ fuel ih =>
    intro items lastPos cnt hio hlo
    rcases items with - | ⟨itF, itR⟩
    · exact runFacts_base lastPos
    · simp only [runAux]
      set ch := argminAux itR 1 (0, itF) with hch
      have hchmem : ch.2 ∈ itF :: itR := by
        rcases argminAux_mem itR 1 (0, itF) with h | h
        · rw [hch, h]
          exact List.mem_cons_self itF itR
        · rw [hch]
          exact List.mem_cons_of_mem itF h
      have hchok := hio ch.2 hchmem
      set se := getStartEnd cfg ch.2 with hse
      split
      case isTrue hemit =>
        have hemitOr : se.1 ≥ lastPos ∨ cfg.allowOverlaps = true := by
          rw [Bool.or_eq_true] at hemit
          rcases hemit with h | h
          · exact Or.inl (of_decide_eq_true h)
          · exact Or.inr h
        have hev := getStartEnd_facts hc hchok.1 hchok.2 hlo (by rw [← hse]; exact hemitOr)
        rw [← hse] at hev
        have hstart : lastPos ≤ (if lastPos > se.1 then lastPos else se.1) := by
          by_cases h : lastPos > se.1
          · rw [if_pos h]
          · rw [if_neg h]; omega
        have hnc : cfg.allowOverlaps = false →
            (if lastPos > se.1 then lastPos else se.1) = se.1 := by
          intro ho
          rcases hemitOr with hge | hov
          · rw [if_neg (by omega)]
          · rw [ho] at hov; cases hov
        split
        case isTrue hbreak =>
          exact runFacts_single (getReplace cfg ch.2) hev hstart hnc
        case isFalse hbreak =>
          refine runFacts_cons (getReplace cfg ch.2) hev hstart hnc
            (ih _ _ _ ?_ (lastOK_of_event hev))
          split
          case isTrue hov =>
            exact itemsOK_runStepOverlap hc hio hchok.1
          case isFalse hovp =>
            have hov : cfg.allowOverlaps = false := by
              rw [Bool.not_eq_true] at hovp
              exact hovp
            exact itemsOK_runStepSkip hc hio hchok.1 hov
      case isFalse hemit =>
        exact ih _ _ _ (itemsOK_runStepNoEmit hc hio hchok.1) hlo

theorem mkConfig_wf' (tbl : Char → Option (List Char)) (o : Opts) (s : List Char) :
    CfgWF (mkConfig tbl o s) := mkConfig_wf tbl o s

/-- Every successful top-level call satisfies the run facts, and its output
is the loop output followed by the untouched tail of the input. -/
theorem replaceCore_facts {tbl : Char → Option (List Char)} {re : ReEngine}
    {string : List Char} {searches : List SearchIn} {subs : List Sub} {o : Opts}
    {fuel : Nat} {r : RunOut} (hcs : CompileSane re)
    (h : replaceCore tbl re string searches subs o fuel = .ok r) :
    RunFacts (mkConfig tbl o string) 0 (r.body, r.events, r.finalLast) ∧
      r.out = r.body ++ pySliceFrom string r.finalLast := by
  unfold replaceCore at h
  rcases hgs : getSearchItems tbl re o searches subs with e | items0 <;> rw [hgs] at h
  · exact Except.noConfusion h
  · have hwfs := getSearchItems_wf hcs hgs
    have hioks := initItems_ok (mkConfig_wf tbl o string) hwfs
    have hlo : LastOK (mkConfig tbl o string) 0 := ⟨le_refl 0, fun _ => Or.inl rfl⟩
    rcases hcnt : o.count with - | n <;> rw [hcnt] at h
    · have heq := Except.ok.inj h
      subst heq
      exact ⟨runAux_master (mkConfig_wf tbl o string) fuel _ 0 none hioks hlo, rfl⟩
    · have h2 : (if n ≤ 0 then (Except.error URError.invalidCount : Except URError RunOut)
          else Except.ok (runClose (mkConfig tbl o string) fuel
            (initItems (mkConfig tbl o string) items0) (some n))) = Except.ok r := h
      by_cases hn : n ≤ 0
      · rw [if_pos hn] at h2
        exact Except.noConfusion h2
      · rw [if_neg hn] at h2
        have heq := Except.ok.inj h2
        subst heq
        exact ⟨runAux_master (mkConfig_wf tbl o string) fuel _ 0 (some n) hioks hlo, rfl⟩

/-- The limited run's events are the prefix of the unlimited run's: the
count only breaks the loop, it never changes what is selected. -/
theorem runAux_take (cfg : URConfig) :
    ∀ (fuel : Nat) (items : List SearchItem) (lastPos : Int) (n : Int), 1 ≤ n →
      (runAux cfg fuel items lastPos (some n)).2.1 =
        ((runAux cfg fuel items lastPos none).2.1).take n.toNat := by
  intro fuel
  induction fuel with
  | zero =>
    intro items lastPos n hn
    simp only [runAux, List.take_nil]
  | succ fuel ih =>
    intro items lastPos n hn
    rcases items with - | ⟨itF, itR⟩
    · simp only [runAux, List.take_nil]
    · simp only [runAux, Option.elim, Option.map]
      split
      case isTrue hemit =>
        by_cases hbr : n ≤ 1
        · rw [if_pos (show decide (n ≤ 1) = true from decide_eq_true hbr),
              if_neg (show ¬(false = true) from Bool.false_ne_true)]
          have hn1 : n.toNat = 1 := by omega
          rw [hn1]
          rfl
        · rw [if_neg (show ¬(decide (n ≤ 1) = true) from by
                simp only [decide_eq_true_eq]; exact hbr),
              if_neg (show ¬(false = true) from Bool.false_ne_true)]
          have hk : n.toNat = (n - 1).toNat + 1 := by omega
          rw [hk]
          exact congrArg (List.cons _) (ih _ _ _ (by omega))
      case isFalse hemit =>
        exact ih _ lastPos n hn

/-- Along an unclamped chain, every event starts at or after the
threshold. -/
theorem chain_le {cfg : URConfig} :
    ∀ {evs : List REvent} {l : Int}, EventsChain l evs →
      (∀ e ∈ evs, EventOKP cfg e) → (∀ e ∈ evs, e.eStart = e.mStart) →
      ∀ b ∈ evs, l ≤ b.eStart := by
  intro evs
  induction evs with
  | nil =>
    intro l _ _ _ b hb
    cases hb
  | cons e es ih =>
    intro l hch hok hnc b hb
    rcases List.mem_cons.1 hb with rfl | hb'
    · exact hch.1
    · have h1 : e.mEnd ≤ b.eStart :=
        ih hch.2 (fun x hx => hok x (List.mem_cons_of_mem e hx))
          (fun x hx => hnc x (List.mem_cons_of_mem e hx)) b hb'
      have h2 := hnc e (List.mem_cons_self e es)
      have h3 := (hok e (List.mem_cons_self e es)).mLe
      have h4 := hch.1
      omega

/-- Without overlaps the emitted spans are pairwise ordered: each one ends
at or before the next one starts. -/
theorem chain_pairwise {cfg : URConfig} :
    ∀ {evs : List REvent} {l : Int}, EventsChain l evs →
      (∀ e ∈ evs, EventOKP cfg e) → (∀ e ∈ evs, e.eStart = e.mStart) →
      evs.Pairwise (fun a b => a.mEnd ≤ b.mStart) := by
  intro evs
  induction evs with
  | nil =>
    intro l _ _ _
    exact List.Pairwise.nil
  | cons e es ih =>
    intro l hch hok hnc
    refine List.Pairwise.cons ?_
      (ih hch.2 (fun x hx => hok x (List.mem_cons_of_mem e hx))
        (fun x hx => hnc x (List.mem_cons_of_mem e hx)))
    intro b hb
    have h1 : e.mEnd ≤ b.eStart :=
      chain_le hch.2 (fun x hx => hok x (List.mem_cons_of_mem e hx))
        (fun x hx => hnc x (List.mem_cons_of_mem e hx)) b hb
    rw [hnc b (List.mem_cons_of_mem e hb)] at h1
    exact h1

theorem pySliceFrom_zero (s : List Char) : pySliceFrom s 0 = s := by
  unfold pySliceFrom pySlice pyIdx
  have h1 : ¬((s.length : Int) < 0) := by omega
  have h2 : ¬((0 : Int) < 0) := by omega
  rw [if_neg h1, if_neg h2]
  have h3 : (min ((s.length : Int)) ((s.length : Int))).toNat = s.length := by omega
  have h4 : (min ((s.length : Int)) (0 : Int)).toNat = 0 := by omega
  rw [h3, h4, List.take_length, List.drop_zero]

/-- Text before a slice-start survives at the front of the loop output. -/
theorem take_prefix_of_slice {s rest : List Char} {q p : Int}
    (h0 : 0 ≤ p) (hpq : p ≤ q) (hlen : p ≤ (s.length : Int)) :
    (pySlice s 0 q ++ rest).take p.toNat = s.take p.toNat := by
  have hsl : pySlice s 0 q = (s.take (pyIdx s.length q)).drop (pyIdx s.length 0) := rfl
  have hz : pyIdx s.length 0 = 0 := by
    unfold pyIdx
    rw [if_neg (by omega : ¬((0 : Int) < 0))]
    omega
  rw [hsl, hz, List.drop_zero]
  have hple : p.toNat ≤ pyIdx s.length q := by
    unfold pyIdx
    rw [if_neg (by omega : ¬(q < 0))]
    have : min ((s.length : Int)) q = if (s.length : Int) ≤ q then (s.length : Int) else q := by
      rw [min_def]
    omega
  have hlen2 : p.toNat ≤ (s.take (pyIdx s.length q)).length := by
    rw [List.length_take]
    have hli : pyIdx s.length q ≤ s.length := by
      unfold pyIdx
      rw [if_neg (by omega : ¬(q < 0))]
      have : min ((s.length : Int)) q = if (s.length : Int) ≤ q then (s.length : Int) else q := by
        rw [min_def]
      omega
    omega
  rw [List.take_append_of_le_length hlen2, List.take_take]
  have hmin : min p.toNat (pyIdx s.length q) = p.toNat := by omega
  rw [hmin]

/-! ### The options a given stage actually reads -/

/-- Constructing one item reads only the four search-shaping options. -/
theorem getSearchItem_congr {tbl : Char → Option (List Char)} {re : ReEngine} {o o' : Opts}
    (h1 : o.reSearch = o'.reSearch) (h2 : o.reFlags = o'.reFlags)
    (h3 : o.unidecodedSearch = o'.unidecodedSearch)
    (h4 : o.strCaseSensitive = o'.strCaseSensitive) :
    ∀ sIn sb, getSearchItem tbl re o sIn sb = getSearchItem tbl re o' sIn sb := by
  intro sIn sb
  rcases sIn with txt | p
  · simp only [getSearchItem, mkItemRegex, mkItemStr, h1, h2, h3, h4]
  · simp only [getSearchItem, mkItemRegex, h3]

theorem collectItems_congr {f g : α → Except URError SearchItem}
    (h : ∀ x, f x = g x) : ∀ l, collectItems f l = collectItems g l := by
  intro l
  induction l with
  | nil => rfl
  | cons x xs ih => simp only [collectItems, h x, ih]

theorem getSearchItems_congr {tbl : Char → Option (List Char)} {re : ReEngine} {o o' : Opts}
    (h1 : o.reSearch = o'.reSearch) (h2 : o.reFlags = o'.reFlags)
    (h3 : o.unidecodedSearch = o'.unidecodedSearch)
    (h4 : o.strCaseSensitive = o'.strCaseSensitive)
    (searches : List SearchIn) (subs : List Sub) :
    getSearchItems tbl re o searches subs = getSearchItems tbl re o' searches subs := by
  unfold getSearchItems
  by_cases he : searches.isEmpty
  · rw [if_pos he, if_pos he]
  · rw [if_neg he, if_neg he]
    by_cases hl : searches.length = subs.length
    · rw [if_pos hl, if_pos hl]
      exact collectItems_congr (fun pr => getSearchItem_congr h1 h2 h3 h4 pr.1 pr.2)
        (searches.zip subs)
    · rw [if_neg hl, if_neg hl]
      rcases subs with - | ⟨sb, rest⟩
      · rfl
      · rcases rest with - | ⟨y, more⟩
        · exact collectItems_congr (fun sIn => getSearchItem_congr h1 h2 h3 h4 sIn sb) searches
        · rfl

/-- The configuration reads neither `count`, `re_search` nor `re_flags`. -/
theorem mkConfig_congr {tbl : Char → Option (List Char)} {o o' : Opts} (string : List Char)
    (h3 : o.unidecodedSearch = o'.unidecodedSearch)
    (h4 : o.strCaseSensitive = o'.strCaseSensitive)
    (h5 : o.allowOverlaps = o'.allowOverlaps)
    (h6 : o.pos = o'.pos) (h7 : o.endpos = o'.endpos) :
    mkConfig tbl o string = mkConfig tbl o' string := by
  simp only [mkConfig, h3, h4, h5, h6, h7]

/-- Two option records agreeing on every consulted field produce the same
call result. -/
theorem replaceCore_congr {tbl : Char → Option (List Char)} {re : ReEngine}
    {string : List Char} {searches : List SearchIn} {subs : List Sub} {o o' : Opts}
    (fuel : Nat)
    (h1 : o.reSearch = o'.reSearch) (h2 : o.reFlags = o'.reFlags)
    (h3 : o.unidecodedSearch = o'.unidecodedSearch)
    (h4 : o.strCaseSensitive = o'.strCaseSensitive)
    (h5 : mkConfig tbl o string = mkConfig tbl o' string)
    (h8 : o.count = o'.count) :
    replaceCore tbl re string searches subs o fuel =
      replaceCore tbl re string searches subs o' fuel := by
  unfold replaceCore
  rw [getSearchItems_congr h1 h2 h3 h4 searches subs, h5, h8]

/-- The count relation at the top level: same options but for the count,
the limited run's events are a prefix of the unlimited run's. -/
theorem replaceCore_take {tbl : Char → Option (List Char)} {re : ReEngine}
    {string : List Char} {searches : List SearchIn} {subs : List Sub} {o : Opts}
    {N : Int} {fuel : Nat} {r rU : RunOut} (hN : 1 ≤ N)
    (hL : replaceCore tbl re string searches subs { o with count := some N } fuel = .ok r)
    (hU : replaceCore tbl re string searches subs { o with count := none } fuel = .ok rU) :
    r.events = rU.events.take N.toNat := by
  unfold replaceCore at hL hU
  have hgc : getSearchItems tbl re { o with count := some N } searches subs =
      getSearchItems tbl re { o with count := none } searches subs :=
    getSearchItems_congr rfl rfl rfl rfl searches subs
  rw [hgc] at hL
  rcases hgs : getSearchItems tbl re { o with count := none } searches subs with e | items0 <;>
    rw [hgs] at hL hU
  · exact Except.noConfusion hL
  · have hcfg : mkConfig tbl { o with count := some N } string =
        mkConfig tbl { o with count := none } string := rfl
    rw [hcfg] at hL
    have hL2 : (if N ≤ 0 then (Except.error URError.invalidCount : Except URError RunOut)
        else Except.ok (runClose (mkConfig tbl { o with count := none } string) fuel
          (initItems (mkConfig tbl { o with count := none } string) items0) (some N))) =
          Except.ok r := hL
    rw [if_neg (by omega : ¬(N ≤ 0))] at hL2
    have hU2 : Except.ok (runClose (mkConfig tbl { o with count := none } string) fuel
        (initItems (mkConfig tbl { o with count := none } string) items0) none) =
        Except.ok rU := hU
    have g1 := Except.ok.inj hL2
    have g2 := Except.ok.inj hU2
    subst g1
    subst g2
    exact runAux_take (mkConfig tbl { o with count := none } string) fuel
      (initItems (mkConfig tbl { o with count := none } string) items0) 0 N hN

/-! ### Concrete collaborators for the examples -/

/-- A two-entry transliteration table: the two ideographs of 北亰 expand
to "Bei " and "Jing " exactly as `unidecode` renders them; every other
character is left to `_get_repl_str`'s ASCII fast path. -/
def tblDemo : Char → Option (List Char) := fun c =>
  if c = '北' then some ("Bei ".toList)
  else if c = '亰' then some ("Jing ".toList)
  else none

/-- A literal-substring search: the pattern source is looked up as a fixed
string from the requested position; its matches carry no groups. -/
def litEngine (needle : List Char) : List Char → Int → Option UniMatch :=
  fun hay p => (strIndexFrom hay needle p).map
    (fun i => { ustart := i, uend := i + needle.length, lastindex := none,
                expandF := fun t => t })

/-- A regex engine whose every pattern is a literal: enough to replay the
repository's group-free test scenarios exactly. -/
def reDemo : ReEngine :=
  { compile := fun src fl => { source := src, flags := fl, search := litEngine src }
    matchesEmptyProbe := fun src => src.isEmpty }

theorem litEngine_sane (needle : List Char) :
    ∀ hay q m, litEngine needle hay q = some m → 0 ≤ m.ustart ∧ m.ustart ≤ m.uend := by
  intro hay q m h
  simp only [litEngine] at h
  rcases Option.map_eq_some'.1 h with ⟨i, hf, hm⟩
  have h0 : (0 : Int) ≤ i := strIndexFrom_nonneg hf
  subst hm
  refine ⟨h0, ?_⟩
  show i ≤ i + (needle.length : Int)
  omega

theorem reDemo_sane : CompileSane reDemo :=
  fun src _ => litEngine_sane src

/-- The stored search text of an item: the literal for a string item, the
compiled source for a pattern item. -/
def kindSource : SIKind → List Char
  | .strK s => s
  | .reK q _ => q.source

/-- A compiled pattern over the demo engine whose source is the single
ideograph 北. -/
def pDemo : RePattern :=
  { source := ['北'], flags := 0, search := litEngine ['北'] }

/-- A compiled pattern matching the empty string. -/
def pEmptyDemo : RePattern :=
  { source := [], flags := 0, search := litEngine [] }

/-- The `test_lastindex` substitution: tag a plain-string argument, format
`lastindex` for a match argument. -/
def lastindexFmt : SubArg → List Char
  | .s _ => "STR".toList
  | .m _ li _ _ _ _ =>
    "[".toList ++
      (match li with
       | none => "None".toList
       | some i => (toString i).toList) ++ "]".toList

/-- The substitution the specification's wording describes for `wrap`:
prefix, then the matched original text, then suffix. -/
def wrapSubSpec (pre suf : List Char) : Sub :=
  .fn (fun a =>
    pre ++ (match a with | .s t => t | .m g0 _ _ _ _ _ => g0) ++ suf)

/-! ### Broadcast of a single substitution -/

theorem collectItems_zip_replicate {g : SearchIn → Sub → Except URError SearchItem}
    (c : Sub) :
    ∀ l : List SearchIn,
      collectItems (fun pr => g pr.1 pr.2) (l.zip (List.replicate l.length c)) =
        collectItems (fun sIn => g sIn c) l := by
  intro l
  induction l with
  | nil => rfl
  | cons x xs ih =>
    show collectItems (fun pr => g pr.1 pr.2)
        ((x, c) :: xs.zip (List.replicate xs.length c)) =
      collectItems (fun sIn => g sIn c) (x :: xs)
    simp only [collectItems, ih]

/-- A single substitution behaves exactly as that substitution repeated
once per search term and paired index-wise. -/
theorem getSearchItems_broadcast {tbl : Char → Option (List Char)} {re : ReEngine}
    {o : Opts} {searches : List SearchIn} (hne : searches ≠ []) (sb : Sub) :
    getSearchItems tbl re o searches [sb] =
      getSearchItems tbl re o searches (List.replicate searches.length sb) := by
  unfold getSearchItems
  have hie : searches.isEmpty = false := by
    rcases searches with - | ⟨a, l⟩
    · exact absurd rfl hne
    · rfl
  rw [hie, if_neg Bool.false_ne_true, if_neg Bool.false_ne_true]
  have hlr : searches.length = (List.replicate searches.length sb).length :=
    (List.length_replicate searches.length sb).symm
  rw [if_pos hlr]
  by_cases h1 : searches.length = ([sb] : List Sub).length
  · rw [if_pos h1]
    rcases searches with - | ⟨a, l⟩
    · exact absurd rfl hne
    · rcases l with - | ⟨b, l2⟩
      · rfl
      · exfalso
        have h2 : (a :: b :: l2).length = l2.length + 2 := rfl
        have h3 : ([sb] : List Sub).length = 1 := rfl
        omega
  · rw [if_neg h1]
    show collectItems (fun sIn => getSearchItem tbl re o sIn sb) searches = _
    exact (collectItems_zip_replicate sb searches).symm

/-! ### The claims -/

/-- C1: alignment law — every replacement's transliterated span starts and
ends on a character-expansion boundary recorded in `u2i` (never strictly
inside one original character's expansion), and its original-text span is
the image of those boundaries under the boundary map; in particular
searching the literal "ei" inside 北亰, whose first character expands to
the 4-character "Bei ", finds no match and returns the input unchanged. -/
theorem C1_alignment {tbl : Char → Option (List Char)} {re : ReEngine}
    {string : List Char} {searches : List SearchIn} {subs : List Sub} {o : Opts}
    {fuel : Nat} {r : RunOut} (hcs : CompileSane re)
    (h : replaceCore tbl re string searches subs o fuel = .ok r) :
    (∀ e ∈ r.events,
      (mkConfig tbl o string).u2i.containsI e.uStart = true ∧
      (mkConfig tbl o string).u2i.containsI e.uEnd = true ∧
      e.mStart = (mkConfig tbl o string).u2i.getI e.uStart ∧
      e.mEnd = (mkConfig tbl o string).u2i.getI e.uEnd) ∧
    unidecodeReplace tblDemo reDemo ['北', '亰'] [.s ("ei".toList)] [.str ("Z".toList)] {} =
      .ok ['北', '亰'] := by
  refine ⟨?_, rfl⟩
  intro e he
  have hf := (replaceCore_facts hcs h).1.evOK e he
  exact ⟨hf.cuS, hf.cuE, hf.mS, hf.mE⟩

theorem C1_alignment_witness :
    (mkConfig tblDemo {} ("ababa".toList)).u2i.containsI 0 = true ∧
    (mkConfig tblDemo {} ("ababa".toList)).u2i.containsI 3 = true := by
  have h := C1_alignment reDemo_sane
    (show replaceCore tblDemo reDemo ("ababa".toList) [SearchIn.s ("aba".toList)]
      [Sub.str ("x".toList)] ({} : Opts) 64 =
      Except.ok ⟨"xba".toList, [⟨0, 3, 0, 3, 0⟩], 3, "x".toList⟩ from rfl)
  have h0 := h.1 ⟨0, 3, 0, 3, 0⟩ (List.mem_singleton.2 rfl)
  exact ⟨h0.1, h0.2.1⟩

/-- C2: overlap law — without overlaps no two emitted original-text spans
intersect; with overlaps they may: replacing "aba" by "x" in "ababa"
yields "xba" by default and "xx" with overlaps, the latter emitting the
intersecting spans [0, 3) and [2, 5), which share the position 2. -/
theorem C2_overlap {tbl : Char → Option (List Char)} {re : ReEngine}
    {string : List Char} {searches : List SearchIn} {subs : List Sub} {o : Opts}
    {fuel : Nat} {r : RunOut} (hov : o.allowOverlaps = false) (hcs : CompileSane re)
    (h : replaceCore tbl re string searches subs o fuel = .ok r) :
    r.events.Pairwise (fun a b => ∀ x : Int,
      ¬(a.mStart ≤ x ∧ x < a.mEnd ∧ b.mStart ≤ x ∧ x < b.mEnd)) ∧
    unidecodeReplace tblDemo reDemo ("ababa".toList) [.s ("aba".toList)]
      [.str ("x".toList)] {} = .ok ("xba".toList) ∧
    unidecodeReplace tblDemo reDemo ("ababa".toList) [.s ("aba".toList)]
      [.str ("x".toList)] { allowOverlaps := true } = .ok ("xx".toList) ∧
    (replaceCore tblDemo reDemo ("ababa".toList) [.s ("aba".toList)] [.str ("x".toList)]
      { allowOverlaps := true } 64).map RunOut.events =
      .ok [⟨0, 3, 0, 3, 0⟩, ⟨2, 5, 2, 5, 3⟩] ∧
    ((0 : Int) ≤ 2 ∧ (2 : Int) < 3 ∧ (2 : Int) ≤ 2 ∧ (2 : Int) < 5) := by
  refine ⟨?_, rfl, rfl, rfl, by decide⟩
  have hrf := (replaceCore_facts hcs h).1
  have hmc : (mkConfig tbl o string).allowOverlaps = false := hov
  have hp := chain_pairwise hrf.chain hrf.evOK (hrf.noClamp hmc)
  refine hp.imp ?_
  intro a b hab x hx
  rcases hx with ⟨h1, h2, h3, h4⟩
  omega

theorem C2_overlap_witness :
    ([⟨0, 3, 0, 3, 0⟩] : List REvent).Pairwise (fun a b => ∀ x : Int,
      ¬(a.mStart ≤ x ∧ x < a.mEnd ∧ b.mStart ≤ x ∧ x < b.mEnd)) := by
  have h := C2_overlap rfl reDemo_sane
    (show replaceCore tblDemo reDemo ("ababa".toList) [SearchIn.s ("aba".toList)]
      [Sub.str ("x".toList)] ({} : Opts) 64 =
      Except.ok ⟨"xba".toList, [⟨0, 3, 0, 3, 0⟩], 3, "x".toList⟩ from rfl)
  exact h.1

/-- C3 (amended): window law, corrected — the original end-side bound
`end ≤ scan_end` is false (`endpos` bounds only match starts, and a
validated span may extend past it; see the counterexample); what holds is
the start side: in transliterated search mode with
`0 ≤ scan_start ≤ len(text)`, every emitted original-text span starts at
or after `scan_start`, and the text before `scan_start` reaches the
output unchanged. -/
theorem C3_window {tbl : Char → Option (List Char)} {re : ReEngine}
    {string : List Char} {searches : List SearchIn} {subs : List Sub} {o : Opts}
    {fuel : Nat} {r : RunOut} (hcs : CompileSane re)
    (huni : o.unidecodedSearch = true)
    (h0 : 0 ≤ o.pos.getD 0) (hlen : o.pos.getD 0 ≤ (string.length : Int))
    (h : replaceCore tbl re string searches subs o fuel = .ok r) :
    (∀ e ∈ r.events, o.pos.getD 0 ≤ e.mStart) ∧
    r.out.take (o.pos.getD 0).toNat = string.take (o.pos.getD 0).toNat := by
  obtain ⟨hrf, hout⟩ := replaceCore_facts hcs h
  have huni' : (mkConfig tbl o string).unidecodedSearch = true := huni
  constructor
  · intro e he
    exact (hrf.evOK e he).posW huni'
  · rcases hevs : r.events with - | ⟨e1, es⟩
    · have hb : r.body = [] := hrf.emptyBody hevs
      have hfin : r.finalLast = 0 := by
        have hf := hrf.fin
        rw [hevs] at hf
        exact hf
      rw [hout, hb, hfin, List.nil_append, pySliceFrom_zero]
    · obtain ⟨t, hbody⟩ := hrf.headBody e1 es hevs
      have hmem : e1 ∈ r.events := by
        rw [hevs]
        exact List.mem_cons_self e1 es
      have hstart : o.pos.getD 0 ≤ e1.eStart := by
        have hms := (hrf.evOK e1 hmem).posW huni'
        have hses := (hrf.evOK e1 hmem).mSeS
        have hpw : (mkConfig tbl o string).posW = o.pos.getD 0 := rfl
        rw [hpw] at hms
        omega
      have hbody2 : r.body =
          pySlice (mkConfig tbl o string).string 0 e1.eStart ++ t := hbody
      rw [hout, hbody2, List.append_assoc]
      exact take_prefix_of_slice h0 hstart hlen

theorem C3_window_witness :
    (∀ e ∈ ([⟨2, 4, 2, 4, 2⟩] : List REvent),
      (some (1 : Int)).getD 0 ≤ e.mStart) ∧
    ("abXefg".toList).take ((some (1 : Int)).getD 0).toNat =
      ("abcdefg".toList).take ((some (1 : Int)).getD 0).toNat :=
  C3_window reDemo_sane rfl (by decide) (by decide)
    (show replaceCore tblDemo reDemo ("abcdefg".toList) [SearchIn.s ("cd".toList)]
      [Sub.str ("X".toList)] ({ pos := some 1 } : Opts) 64 =
      Except.ok ⟨"abXefg".toList, [⟨2, 4, 2, 4, 2⟩], 4, "abX".toList⟩ from rfl)

/-- C3: the end-side bound of the original window claim fails — with
`endpos = 3` on "abcd", searching "cd" still replaces the span [2, 4),
whose end exceeds the window end, and the character at index 3 is not
passed through. -/
theorem C3_window_counterexample :
    (replaceCore tblDemo reDemo ("abcd".toList) [.s ("cd".toList)] [.str ("X".toList)]
      { endpos := some 3 } 64).map
        (fun r => (r.out, r.events.map (fun e => (e.mStart, e.mEnd)))) =
      .ok ("abX".toList, [((2 : Int), (4 : Int))]) ∧ ¬((4 : Int) ≤ 3) :=
  ⟨rfl, by decide⟩

/-- C4: count law — with limit N ≥ 1 and otherwise identical arguments,
the limited run emits exactly the first min(N, M) of the M replacements
the unlimited run makes (the shared selection order being earliest-first
with declaration-order tie-break), and appends the rest of the original
text unchanged after the last replacement. -/
theorem C4_count {tbl : Char → Option (List Char)} {re : ReEngine}
    {string : List Char} {searches : List SearchIn} {subs : List Sub} {o : Opts}
    {N : Int} {fuel : Nat} {r rU : RunOut} (hcs : CompileSane re) (hN : 1 ≤ N)
    (hL : replaceCore tbl re string searches subs { o with count := some N } fuel = .ok r)
    (hU : replaceCore tbl re string searches subs { o with count := none } fuel = .ok rU) :
    r.events = rU.events.take N.toNat ∧
    r.events.length = min N.toNat rU.events.length ∧
    r.out = r.body ++ pySliceFrom string r.finalLast ∧
    unidecodeReplace tblDemo reDemo ("aaaa".toList) [.s ("a".toList)] [.str ("b".toList)]
      { count := some 2 } = .ok ("bbaa".toList) := by
  have ht := replaceCore_take hN hL hU
  refine ⟨ht, ?_, (replaceCore_facts hcs hL).2, rfl⟩
  rw [ht, List.length_take]

theorem C4_count_witness :
    ([⟨0, 1, 0, 1, 0⟩, ⟨1, 2, 1, 2, 1⟩] : List REvent) =
      ([⟨0, 1, 0, 1, 0⟩, ⟨1, 2, 1, 2, 1⟩, ⟨2, 3, 2, 3, 2⟩, ⟨3, 4, 3, 4, 3⟩] :
        List REvent).take (2 : Int).toNat :=
  (C4_count reDemo_sane (by decide)
    (show replaceCore tblDemo reDemo ("aaaa".toList) [SearchIn.s ("a".toList)]
      [Sub.str ("b".toList)] { ({} : Opts) with count := some 2 } 64 =
      Except.ok ⟨"bbaa".toList, [⟨0, 1, 0, 1, 0⟩, ⟨1, 2, 1, 2, 1⟩], 2, "bb".toList⟩
      from rfl)
    (show replaceCore tblDemo reDemo ("aaaa".toList) [SearchIn.s ("a".toList)]
      [Sub.str ("b".toList)] { ({} : Opts) with count := none } 64 =
      Except.ok ⟨"bbbb".toList,
        [⟨0, 1, 0, 1, 0⟩, ⟨1, 2, 1, 2, 1⟩, ⟨2, 3, 2, 3, 2⟩, ⟨3, 4, 3, 4, 3⟩], 4,
        "bbbb".toList⟩ from rfl)).1

/-- C5: wrap round-trip — for every string, search set, prefix, suffix and
option combination, `unidecode_wrap` returns exactly what
`unidecode_replace` returns when given the single broadcast substitution
mapping each match to prefix ++ matched original text ++ suffix. -/
theorem C5_wrap (tbl : Char → Option (List Char)) (re : ReEngine) (string : List Char)
    (searches : List SearchIn) (pre suf : List Char) (o : Opts) :
    unidecodeWrap tbl re string searches pre suf o =
      unidecodeReplace tbl re string searches [wrapSubSpec pre suf] o := by
  have hsub : wrapSub pre suf = wrapSubSpec pre suf := by
    unfold wrapSub wrapSubSpec
    refine congrArg Sub.fn (funext fun a => ?_)
    cases a with
    | s t => rfl
    | m g0 li sO eO pw ew => rfl
  show unidecodeReplace tbl re string searches [wrapSub pre suf] o = _
  rw [hsub]

/-- C6 (amended): an already-compiled pattern is not used fully as-is.
What holds: its flags are taken from the compiled object (`re_flags` is
ignored for it, appearing nowhere in the result), and the item is
case-sensitive exactly when the object's ignore-case bit is clear.  What
the original claim gets wrong: the object's source IS re-transliterated
whenever transliterated search is on (the default), and is used unchanged
only with `unidecoded_search` off — see the counterexample. -/
theorem C6_compiled {tbl : Char → Option (List Char)} {re : ReEngine} {o : Opts}
    {p : RePattern} {sb : Sub} {it : SearchItem}
    (h : getSearchItem tbl re o (.pat p) sb = .ok it) :
    it.kind = .reK
      (re.compile (if o.unidecodedSearch then unidecodeIgnore tbl p.source else p.source)
        p.flags)
      (decide (p.flags &&& 2 = 0)) := by
  have h' : mkItemRegex tbl re o p sb = .ok it := h
  simp only [mkItemRegex] at h'
  set src := if o.unidecodedSearch then unidecodeIgnore tbl p.source else p.source with hsrc
  split at h'
  · exact Except.noConfusion h'
  · have heq := Except.ok.inj h'
    rw [← heq]

theorem C6_compiled_witness :
    ({ kind := .reK (reDemo.compile ("Bei ".toList) 0) true, sub := Sub.str [],
       st := { pos := -1, posIter := none, m := none } } : SearchItem).kind =
      .reK (reDemo.compile
        (if ({} : Opts).unidecodedSearch then unidecodeIgnore tblDemo pDemo.source
         else pDemo.source) pDemo.flags)
        (decide (pDemo.flags &&& 2 = 0)) :=
  C6_compiled (show getSearchItem tblDemo reDemo {} (.pat pDemo) (Sub.str []) =
    Except.ok { kind := .reK (reDemo.compile ("Bei ".toList) 0) true, sub := Sub.str [],
                st := { pos := -1, posIter := none, m := none } } from rfl)

/-- C6: refuting "its source is never re-transliterated" — with default
options the demo pattern whose source is the ideograph 北 gets recompiled
over the transliterated source "Bei ", not over its original source. -/
theorem C6_compiled_counterexample :
    (getSearchItem tblDemo reDemo {} (.pat pDemo) (Sub.str [])).map
        (fun it => kindSource it.kind) = .ok ("Bei ".toList) ∧
      pDemo.source = ['北'] ∧ ("Bei ".toList) ≠ (['北'] : List Char) :=
  ⟨rfl, rfl, by decide⟩

/-- C7: a pattern search term whose (possibly transliterated) source can
match the empty string aborts the whole call with the
`EmptyPatternMatch` construction error, so no output is produced. -/
theorem C7_emptyPattern {tbl : Char → Option (List Char)} {re : ReEngine}
    {string : List Char} {sb : Sub} {o : Opts} {fuel : Nat} (p : RePattern)
    (hprobe : re.matchesEmptyProbe
      (if o.unidecodedSearch then unidecodeIgnore tbl p.source else p.source) = true) :
    replaceCore tbl re string [.pat p] [sb] o fuel = .error .emptyPatternMatch := by
  have h1 : getSearchItem tbl re o (.pat p) sb = .error .emptyPatternMatch := by
    simp only [getSearchItem, mkItemRegex]
    rw [hprobe, if_pos rfl]
  have h2 : getSearchItems tbl re o [.pat p] [sb] = .error .emptyPatternMatch := by
    unfold getSearchItems
    rw [if_neg (show ¬(([SearchIn.pat p] : List SearchIn).isEmpty = true) from
      fun hh => Bool.false_ne_true hh)]
    rw [if_pos (show ([SearchIn.pat p] : List SearchIn).length = ([sb] : List Sub).length
      from rfl)]
    show collectItems (fun pr => getSearchItem tbl re o pr.1 pr.2) [(SearchIn.pat p, sb)] = _
    simp only [collectItems, h1]
  simp only [replaceCore, h2]

theorem C7_emptyPattern_witness :
    replaceCore tblDemo reDemo ("abc".toList) [.pat pEmptyDemo] [Sub.str []] {} 64 =
      .error .emptyPatternMatch :=
  C7_emptyPattern pEmptyDemo rfl

/-- C8: substitution-count law — a nonempty search set whose substitution
count neither matches the search count nor is one aborts with
`SubCountMismatch` and produces no output (e.g. three searches with two
substitutions); matched counts pair searches and substitutions index-wise,
and a single substitution behaves exactly as that substitution repeated
once per search. -/
theorem C8_subCount {tbl : Char → Option (List Char)} {re : ReEngine}
    {string : List Char} {searches : List SearchIn} {subs : List Sub} {o : Opts}
    {fuel : Nat}
    (hne : searches ≠ []) (hlen : searches.length ≠ subs.length)
    (hone : subs.length ≠ 1) :
    replaceCore tbl re string searches subs o fuel = .error .subCountMismatch ∧
    (∀ subs2 : List Sub, searches.length = subs2.length →
      getSearchItems tbl re o searches subs2 =
        collectItems (fun pr => getSearchItem tbl re o pr.1 pr.2) (searches.zip subs2)) ∧
    (∀ sb : Sub, getSearchItems tbl re o searches [sb] =
      getSearchItems tbl re o searches (List.replicate searches.length sb)) ∧
    unidecodeReplace tblDemo reDemo ("Text".toList)
      [.s ("some".toList), .s ("th".toList), .s ("ing".toList)]
      [.str ("foo".toList), .str ("bar".toList)] {} = .error .subCountMismatch := by
  have hie : searches.isEmpty = false := by
    rcases searches with - | ⟨a, l⟩
    · exact absurd rfl hne
    · rfl
  refine ⟨?_, ?_, fun sb => getSearchItems_broadcast hne sb, rfl⟩
  · have hgs : getSearchItems tbl re o searches subs = .error .subCountMismatch := by
      unfold getSearchItems
      rw [hie, if_neg Bool.false_ne_true, if_neg hlen]
      rcases subs with - | ⟨sb, rest⟩
      · rfl
      · rcases rest with - | ⟨y, more⟩
        · exact absurd rfl hone
        · rfl
    simp only [replaceCore, hgs]
  · intro subs2 hl2
    unfold getSearchItems
    rw [hie, if_neg Bool.false_ne_true, if_pos hl2]

theorem C8_subCount_witness :
    replaceCore tblDemo reDemo ("Text".toList)
      [.s ("some".toList), .s ("th".toList), .s ("ing".toList)]
      [.str ("foo".toList), .str ("bar".toList)] {} 64 = .error .subCountMismatch :=
  (C8_subCount (fun hh => List.noConfusion hh) (by decide) (by decide)).1

/-- C9 (amended): the lastindex scenario as claimed holds only with
`re_search = true` — then the search string is compiled into a pattern,
the callable receives a match object whose `lastindex` is `None` (the
pattern has no capture groups), and the call returns "ab[None]efg".  With
default options the term stays a plain string search whose callable
receives the matched substring itself, not a match object — see the
counterexample. -/
theorem C9_lastindex :
    unidecodeReplace tblDemo reDemo ("abcdefg".toList) [.s ("cd".toList)]
      [Sub.fn lastindexFmt] { reSearch := true } = .ok ("ab[None]efg".toList) := rfl

/-- C9: refuting the claim at its stated default options — the same call
without `re_search` passes the plain matched substring to the callable
(there is no match object, hence no `lastindex` to read), and the result
differs from the claimed one. -/
theorem C9_lastindex_counterexample :
    unidecodeReplace tblDemo reDemo ("abcdefg".toList) [.s ("cd".toList)]
      [Sub.fn lastindexFmt] {} = .ok ("abSTRefg".toList) ∧
    ("abSTRefg".toList) ≠ ("ab[None]efg".toList) :=
  ⟨rfl, by decide⟩

/-- C10: window defaulting and clamping — an `endpos` at or beyond the
text length behaves exactly like `endpos = len(text)`, a missing `endpos`
defaults to `len(text)`, and a missing `pos` defaults to `0`. -/
theorem C10_clamp {tbl : Char → Option (List Char)} {re : ReEngine}
    {string : List Char} {searches : List SearchIn} {subs : List Sub} {fuel : Nat}
    (o : Opts) (e : Int) (hge : (string.length : Int) ≤ e) :
    (replaceCore tbl re string searches subs { o with endpos := some e } fuel =
      replaceCore tbl re string searches subs
        { o with endpos := some (string.length : Int) } fuel) ∧
    (replaceCore tbl re string searches subs { o with endpos := none } fuel =
      replaceCore tbl re string searches subs
        { o with endpos := some (string.length : Int) } fuel) ∧
    (replaceCore tbl re string searches subs { o with pos := none } fuel =
      replaceCore tbl re string searches subs { o with pos := some 0 } fuel) := by
  refine ⟨?_, ?_, ?_⟩
  · refine replaceCore_congr fuel rfl rfl rfl rfl ?_ rfl
    simp only [mkConfig]
    rw [show min ((string.length : Int)) e =
      min ((string.length : Int)) ((string.length : Int)) from by omega]
  · refine replaceCore_congr fuel rfl rfl rfl rfl ?_ rfl
    simp only [mkConfig]
    rw [show min ((string.length : Int)) ((string.length : Int)) =
      ((string.length : Int)) from by omega]
  · exact replaceCore_congr fuel rfl rfl rfl rfl rfl rfl

theorem C10_clamp_witness :
    replaceCore tblDemo reDemo ("abcd".toList) [.s ("cd".toList)] [.str ("X".toList)]
      { ({} : Opts) with endpos := some 99 } 64 =
    replaceCore tblDemo reDemo ("abcd".toList) [.s ("cd".toList)] [.str ("X".toList)]
      { ({} : Opts) with endpos := some ((("abcd".toList).length : Nat) : Int) } 64 :=
  (C10_clamp ({} : Opts) 99 (by decide)).1

end UniR
